import Mathlib

/-!
Verification of the `ring` repository's core components against its
specification: the LRU cache engine (`ring/func/lru_cache.py`) and the
coder registry (`ring/coder.py`).

The Python code is shallowly embedded.  The LRU cache's circular doubly
linked list with sentinel root is represented by the list of its
non-sentinel nodes read from `root[NEXT]` (least recently used) to
`root[PREV]` (most recently used); the sentinel root itself is implicit.
Each link object carries a unique identity (`Node.id`, mirroring Python
object identity), because the `cache` dictionary maps a key to a *link
object*, and after `delete` (which removes the dictionary entry but never
unlinks the node from the circular list) the list can contain several
stale nodes with the same key, of which the dictionary references at most
one.  The dictionary is an insertion-ordered association list, as in
CPython.  An operation that raises `KeyError` in Python (`del cache[key]`
on an absent key) is modelled as returning `none`; Python additionally
leaves partially updated links behind in that case, which no claim here
observes, so the model collapses a raising call to `none`.
-/

/-- Lookup in a Python-dict-like association list (`d.get(k)`). -/
def dictGet {K A : Type} [DecidableEq K] : List (K × A) → K → Option A
  | [], _ => none
  | (k, a) :: rest, key => if k = key then some a else dictGet rest key

/-- Assignment `d[k] = a`: replace in place if present, else append,
as a CPython insertion-ordered dict does. -/
def dictSet {K A : Type} [DecidableEq K] : List (K × A) → K → A → List (K × A)
  | [], key, a => [(key, a)]
  | (k, b) :: rest, key, a =>
      if k = key then (k, a) :: rest else (k, b) :: dictSet rest key a

/-- Deletion `del d[k]`: `none` models the `KeyError` raised on an
absent key. -/
def dictDel {K A : Type} [DecidableEq K] : List (K × A) → K → Option (List (K × A))
  | [], _ => none
  | (k, b) :: rest, key =>
      if k = key then some rest else (dictDel rest key).map ((k, b) :: ·)

/-- One link of the circular list: `id` is the Python object identity of
the link, `key` and `result` are the `KEY` and `RESULT` fields. -/
structure Node (K V : Type) where
  id : Nat
  key : K
  result : V
  deriving DecidableEq

/-- The closure state of `LruCache.__init__`: `cache` is the dict mapping
a key to the identity of its link, `order` lists the non-sentinel links
from LRU to MRU, `full`/`hits`/`misses` are `stat`, and `nextId` is a
fresh supply of link identities. -/
structure LruState (K V : Type) where
  cache : List (K × Nat)
  order : List (Node K V)
  full : Bool
  hits : Nat
  misses : Nat
  maxsize : Nat
  nextId : Nat
  deriving DecidableEq

/-- In-place update `link[-1] = result` of the link with identity `i`,
lifted over the whole list of links (only that link changes). -/
def updNode {K V : Type} (i : Nat) (result : V) (m : Node K V) : Node K V :=
  if m.id == i then { m with result := result } else m

/-- `_CacheInfo` namedtuple. -/
structure CacheInfo where
  hits : Nat
  misses : Nat
  maxsize : Nat
  currsize : Nat
  deriving DecidableEq

namespace LruCache

variable {K V : Type} [DecidableEq K]

/-- `LruCache(maxsize)`: empty dict, root pointing to itself, stat
`[False, 0, 0]`. -/
def init (maxsize : Nat) : LruState K V :=
  { cache := [], order := [], full := false, hits := 0, misses := 0,
    maxsize := maxsize, nextId := 0 }

/-- `get(key)`.  On a hit the link is unlinked and re-inserted in front
of the root (most-recently-used position) and `stat[HITS]` is bumped; on
a miss `stat[MISSES]` is bumped and the `SENTINEL` (modelled by `none`)
is returned.  The inner `none` branch of `find?` is unreachable: the
dictionary only ever references links that are in the circular list. -/
def get (s : LruState K V) (key : K) : LruState K V × Option V :=
  match dictGet s.cache key with
  | some i =>
      match s.order.find? (fun m => m.id == i) with
      | some n =>
          ({ s with order := s.order.filter (fun m => m.id != i) ++ [n],
                    hits := s.hits + 1 }, some n.result)
      | none => (s, none)
  | none => ({ s with misses := s.misses + 1 }, none)

/-- `delete(key)`: `del cache[key]` (raising `KeyError`, i.e. `none`, on
an absent key) and `stat[FULL] = False`.  The link of a deleted key is
*not* removed from the circular list. -/
def delete (s : LruState K V) (key : K) : Option (LruState K V) :=
  match dictDel s.cache key with
  | some cache' => some { s with cache := cache', full := false }
  | none => none

/-- `set(key, result)`.  On a present key only `link[-1]` (the `RESULT`
field) is overwritten.  When the cache is full, the old root takes the
new key/result and becomes the MRU link while the oldest link is emptied
into the new root, and `del cache[oldkey]` can raise (`none`) if a stale
link's key was already deleted from the dict.  Otherwise a fresh link is
appended at the MRU end and `stat[FULL]` is recomputed. -/
def set (s : LruState K V) (key : K) (result : V) : Option (LruState K V) :=
  match dictGet s.cache key with
  | some i =>
      some { s with order := s.order.map (updNode i result) }
  | none =>
      if s.full then
        match s.order with
        | [] => none
        | h :: t =>
            match dictDel s.cache h.key with
            | some cache₁ =>
                some { s with
                  order := t ++ [⟨s.nextId, key, result⟩],
                  cache := dictSet cache₁ key s.nextId,
                  nextId := s.nextId + 1 }
            | none => none
      else
        some { s with
          order := s.order ++ [⟨s.nextId, key, result⟩],
          cache := dictSet s.cache key s.nextId,
          nextId := s.nextId + 1,
          full := decide ((dictSet s.cache key s.nextId).length ≥ s.maxsize) }

/-- `cache_info()`. -/
def cache_info (s : LruState K V) : CacheInfo :=
  { hits := s.hits, misses := s.misses, maxsize := s.maxsize,
    currsize := s.cache.length }

/-- `clear()`: empty the dict, re-point the root to itself, reset stat. -/
def clear (s : LruState K V) : LruState K V :=
  { s with cache := [], order := [], full := false, hits := 0, misses := 0 }

end LruCache

/-- One public call on the engine. -/
inductive LruOp (K V : Type) where
  | get (key : K)
  | set (key : K) (result : V)
  | delete (key : K)
  | clear
  deriving DecidableEq

namespace LruOp

variable {K V : Type} [DecidableEq K]

/-- Run one operation; `none` models a raised `KeyError`. -/
def step (s : LruState K V) : LruOp K V → Option (LruState K V)
  | .get k => some (LruCache.get s k).1
  | .set k v => LruCache.set s k v
  | .delete k => LruCache.delete s k
  | .clear => some (LruCache.clear s)

/-- Run a sequence of operations, stopping at the first raised error. -/
def runTrace (s : LruState K V) : List (LruOp K V) → Option (LruState K V)
  | [] => some s
  | o :: t => match step s o with
    | some s' => runTrace s' t
    | none => none

/-- `true` iff the operation is not a `delete`. -/
def notDelete : LruOp K V → Bool
  | .delete _ => false
  | _ => true

/-- `true` iff the operation is not a `set` on key `k`. -/
def notSetOn (k : K) : LruOp K V → Bool
  | .set k' _ => k' != k
  | _ => true

/-- A sequence of bare `set` calls, as operations. -/
def setsOf (kvs : List (K × V)) : List (LruOp K V) :=
  kvs.map (fun kv => .set kv.1 kv.2)

end LruOp

/-! ### Association-list dictionary lemmas -/

section DictLemmas

variable {K A : Type} [DecidableEq K]

theorem dictGet_cons_self (k : K) (a : A) (rest : List (K × A)) :
    dictGet ((k, a) :: rest) k = some a := by
  simp [dictGet]

theorem dictGet_cons_ne (k key : K) (a : A) (rest : List (K × A))
    (h : k ≠ key) : dictGet ((k, a) :: rest) key = dictGet rest key := by
  simp [dictGet, h]

theorem dictDel_cons_self (k : K) (a : A) (rest : List (K × A)) :
    dictDel ((k, a) :: rest) k = some rest := by
  simp [dictDel]

theorem dictDel_cons_ne (k key : K) (a : A) (rest : List (K × A))
    (h : k ≠ key) :
    dictDel ((k, a) :: rest) key = (dictDel rest key).map ((k, a) :: ·) := by
  simp [dictDel, h]

theorem dictGet_eq_none_iff (l : List (K × A)) (k : K) :
    dictGet l k = none ↔ k ∉ l.map Prod.fst := by
  induction l with
  | nil => simp [dictGet]
  | cons p rest ih =>
    obtain ⟨k', a⟩ := p
    by_cases h : k' = k
    · subst h
      simp [dictGet]
    · simp [dictGet, h, ih, Ne.symm h]

theorem dictGet_isSome_iff (l : List (K × A)) (k : K) :
    (dictGet l k).isSome = true ↔ k ∈ l.map Prod.fst := by
  rcases h : dictGet l k with _ | a
  · rw [dictGet_eq_none_iff] at h
    simp [h]
  · have : k ∈ l.map Prod.fst := by
      by_contra hk
      rw [← dictGet_eq_none_iff] at hk
      rw [hk] at h
      cases h
    simp [this]

theorem dictSet_of_not_mem (l : List (K × A)) (k : K) (a : A)
    (h : k ∉ l.map Prod.fst) : dictSet l k a = l ++ [(k, a)] := by
  induction l with
  | nil => rfl
  | cons p rest ih =>
    obtain ⟨k', b⟩ := p
    simp only [List.map_cons, List.mem_cons] at h
    push_neg at h
    simp [dictSet, Ne.symm h.1, ih h.2]

theorem dictGet_dictSet_self (l : List (K × A)) (k : K) (a : A) :
    dictGet (dictSet l k a) k = some a := by
  induction l with
  | nil => simp [dictSet, dictGet]
  | cons p rest ih =>
    obtain ⟨k', b⟩ := p
    by_cases h : k' = k
    · subst h; simp [dictSet, dictGet]
    · simp [dictSet, dictGet, h, ih]

theorem dictGet_dictSet_ne (l : List (K × A)) (k k' : K) (a : A)
    (h : k ≠ k') : dictGet (dictSet l k a) k' = dictGet l k' := by
  induction l with
  | nil => simp [dictSet, dictGet, h]
  | cons p rest ih =>
    obtain ⟨k₀, b⟩ := p
    by_cases h₀ : k₀ = k
    · subst h₀; simp [dictSet, dictGet, h]
    · simp [dictSet, dictGet, h₀, ih]

theorem dictSet_map_fst_of_not_mem (l : List (K × A)) (k : K) (a : A)
    (h : k ∉ l.map Prod.fst) :
    (dictSet l k a).map Prod.fst = l.map Prod.fst ++ [k] := by
  rw [dictSet_of_not_mem l k a h]
  simp

theorem dictSet_length_of_not_mem (l : List (K × A)) (k : K) (a : A)
    (h : k ∉ l.map Prod.fst) : (dictSet l k a).length = l.length + 1 := by
  rw [dictSet_of_not_mem l k a h]
  simp

theorem dictDel_eq_none_iff (l : List (K × A)) (k : K) :
    dictDel l k = none ↔ k ∉ l.map Prod.fst := by
  induction l with
  | nil => simp [dictDel]
  | cons p rest ih =>
    obtain ⟨k', a⟩ := p
    by_cases h : k' = k
    · subst h; simp [dictDel]
    · simp [dictDel, h, Ne.symm h, Option.map_eq_none', ih]

theorem dictDel_isSome_of_get (l : List (K × A)) (k : K) (i : A)
    (h : dictGet l k = some i) : ∃ l', dictDel l k = some l' := by
  rcases h' : dictDel l k with _ | l'
  · rw [dictDel_eq_none_iff] at h'
    rw [← dictGet_eq_none_iff] at h'
    simp [h'] at h
  · exact ⟨l', rfl⟩

theorem dictGet_dictDel_self (l : List (K × A)) (k : K) (l' : List (K × A))
    (hnd : (l.map Prod.fst).Nodup) (h : dictDel l k = some l') :
    dictGet l' k = none := by
  induction l generalizing l' with
  | nil => simp [dictDel] at h
  | cons p rest ih =>
    obtain ⟨k', a⟩ := p
    simp only [List.map_cons, List.nodup_cons] at hnd
    by_cases hk : k' = k
    · subst hk
      rw [dictDel_cons_self] at h
      cases h
      rw [dictGet_eq_none_iff]
      exact hnd.1
    · rw [dictDel_cons_ne _ _ _ _ hk] at h
      rcases hrest : dictDel rest k with _ | r
      · rw [hrest] at h; cases h
      · rw [hrest] at h
        cases h
        rw [dictGet_cons_ne _ _ _ _ hk]
        exact ih r hnd.2 hrest

theorem dictGet_dictDel_ne (l : List (K × A)) (k k' : K) (l' : List (K × A))
    (hne : k' ≠ k) (h : dictDel l k = some l') :
    dictGet l' k' = dictGet l k' := by
  induction l generalizing l' with
  | nil => simp [dictDel] at h
  | cons p rest ih =>
    obtain ⟨k₀, a⟩ := p
    by_cases hk : k₀ = k
    · subst hk
      rw [dictDel_cons_self] at h
      cases h
      rw [dictGet_cons_ne _ _ _ _ (fun hh => hne hh.symm)]
    · rw [dictDel_cons_ne _ _ _ _ hk] at h
      rcases hrest : dictDel rest k with _ | r
      · rw [hrest] at h; cases h
      · rw [hrest] at h
        cases h
        by_cases h₀ : k₀ = k'
        · subst h₀
          rw [dictGet_cons_self, dictGet_cons_self]
        · rw [dictGet_cons_ne _ _ _ _ h₀, dictGet_cons_ne _ _ _ _ h₀]
          exact ih r hrest

theorem dictDel_map_fst_sublist (l : List (K × A)) (k : K) (l' : List (K × A))
    (h : dictDel l k = some l') :
    List.Sublist (l'.map Prod.fst) (l.map Prod.fst) := by
  induction l generalizing l' with
  | nil => simp [dictDel] at h
  | cons p rest ih =>
    obtain ⟨k₀, a⟩ := p
    by_cases hk : k₀ = k
    · subst hk
      rw [dictDel_cons_self] at h
      cases h
      exact List.sublist_cons_self _ _
    · rw [dictDel_cons_ne _ _ _ _ hk] at h
      rcases hrest : dictDel rest k with _ | r
      · rw [hrest] at h; cases h
      · rw [hrest] at h
        cases h
        simpa using (ih r hrest).cons₂ k₀

theorem dictDel_nodup (l : List (K × A)) (k : K) (l' : List (K × A))
    (hnd : (l.map Prod.fst).Nodup) (h : dictDel l k = some l') :
    (l'.map Prod.fst).Nodup :=
  hnd.sublist (dictDel_map_fst_sublist l k l' h)

theorem dictDel_length (l : List (K × A)) (k : K) (l' : List (K × A))
    (h : dictDel l k = some l') : l'.length + 1 = l.length := by
  induction l generalizing l' with
  | nil => simp [dictDel] at h
  | cons p rest ih =>
    obtain ⟨k₀, a⟩ := p
    by_cases hk : k₀ = k
    · subst hk
      rw [dictDel_cons_self] at h
      cases h
      rfl
    · rw [dictDel_cons_ne _ _ _ _ hk] at h
      rcases hrest : dictDel rest k with _ | r
      · rw [hrest] at h; cases h
      · rw [hrest] at h
        cases h
        simp [← ih r hrest]

end DictLemmas

/-! ### Link-list lemmas -/

section NodeLemmas

variable {K V : Type}

theorem updNode_id (i : Nat) (v : V) (m : Node K V) :
    (updNode i v m).id = m.id := by
  unfold updNode
  split <;> rfl

theorem updNode_key (i : Nat) (v : V) (m : Node K V) :
    (updNode i v m).key = m.key := by
  unfold updNode
  split <;> rfl

theorem map_id_map_updNode (l : List (Node K V)) (i : Nat) (v : V) :
    (l.map (updNode i v)).map Node.id = l.map Node.id := by
  induction l with
  | nil => rfl
  | cons m t ih => simp [updNode_id, ih]

theorem map_key_map_updNode (l : List (Node K V)) (i : Nat) (v : V) :
    (l.map (updNode i v)).map Node.key = l.map Node.key := by
  induction l with
  | nil => rfl
  | cons m t ih => simp [updNode_key, ih]

theorem find?_map_updNode (l : List (Node K V)) (i j : Nat) (v : V) :
    (l.map (updNode j v)).find? (fun m => m.id == i) =
      (l.find? (fun m => m.id == i)).map (updNode j v) := by
  induction l with
  | nil => rfl
  | cons m t ih =>
    by_cases h : m.id = i
    · simp [List.find?_cons, updNode_id, h]
    · simp [List.find?_cons, updNode_id, h, ih]

theorem find?_id_eq_of_mem (l : List (Node K V))
    (hnd : (l.map Node.id).Nodup) (n : Node K V) (hn : n ∈ l) :
    l.find? (fun m => m.id == n.id) = some n := by
  induction l with
  | nil => cases hn
  | cons m t ih =>
    simp only [List.map_cons, List.nodup_cons] at hnd
    rcases List.mem_cons.mp hn with h | h
    · subst h
      simp [List.find?_cons]
    · have hne : m.id ≠ n.id := by
        intro he
        exact hnd.1 (he ▸ (List.mem_map.mpr ⟨n, h, rfl⟩))
      simp [List.find?_cons, hne, ih hnd.2 h]

theorem find?_id_mem (l : List (Node K V)) (i : Nat) (n : Node K V)
    (h : l.find? (fun m => m.id == i) = some n) : n ∈ l ∧ n.id = i := by
  refine ⟨List.mem_of_find?_eq_some h, ?_⟩
  have := List.find?_some h
  simpa using this

theorem filter_ne_of_forall (l : List (Node K V)) (i : Nat)
    (h : ∀ m ∈ l, m.id ≠ i) : l.filter (fun m => m.id != i) = l := by
  apply List.filter_eq_self.mpr
  intro m hm
  simpa using h m hm

theorem filter_append_perm_of_find? (l : List (Node K V)) (i : Nat)
    (n : Node K V) (hnd : (l.map Node.id).Nodup)
    (hf : l.find? (fun m => m.id == i) = some n) :
    List.Perm (l.filter (fun m => m.id != i) ++ [n]) l := by
  induction l with
  | nil => cases hf
  | cons m t ih =>
    simp only [List.map_cons, List.nodup_cons] at hnd
    by_cases h : m.id = i
    · have hb : (m.id == i) = true := by simp [h]
      rw [List.find?_cons, hb] at hf
      cases hf
      have ht : t.filter (fun m => m.id != i) = t := by
        apply filter_ne_of_forall
        intro m' hm' he
        exact hnd.1 (by rw [h, ← he]; exact List.mem_map.mpr ⟨m', hm', rfl⟩)
      rw [List.filter_cons_of_neg (by simp [h]), ht]
      exact List.perm_append_singleton n t
    · have hb : (m.id == i) = false := by simp [h]
      rw [List.find?_cons, hb] at hf
      rw [List.filter_cons_of_pos (by simp [h])]
      exact List.Perm.cons m (ih hnd.2 hf)

theorem find?_append_of_some (l₁ l₂ : List (Node K V)) (p : Node K V → Bool)
    (n : Node K V) (h : l₁.find? p = some n) :
    (l₁ ++ l₂).find? p = some n := by
  induction l₁ with
  | nil => cases h
  | cons m t ih =>
    rw [List.find?_cons] at h
    rcases hp : p m with _ | _
    · rw [hp] at h
      simp only [List.cons_append, List.find?_cons, hp]
      exact ih h
    · rw [hp] at h
      cases h
      simp [List.find?_cons, hp]

theorem find?_append_of_none (l₁ l₂ : List (Node K V)) (p : Node K V → Bool)
    (h : l₁.find? p = none) : (l₁ ++ l₂).find? p = l₂.find? p := by
  induction l₁ with
  | nil => rfl
  | cons m t ih =>
    rw [List.find?_cons] at h
    rcases hp : p m with _ | _
    · rw [hp] at h
      simp only [List.cons_append, List.find?_cons, hp]
      exact ih h
    · rw [hp] at h
      cases h

end NodeLemmas

/-! ### The engine invariant, preserved by every delete-free operation -/

section Invariant

variable {K V : Type} [DecidableEq K]

/-- Consistency and capacity invariant of every engine state reachable
without `delete`: the dict references exactly the links of the circular
list (bijectively), link identities are fresh and distinct, and the entry
count is bounded by the capacity (`maxsize`, except that a `maxsize` of 0
still admits one entry, because `stat[FULL]` is only recomputed *after*
an insertion). -/
structure LruInv (s : LruState K V) : Prop where
  cacheND : (s.cache.map Prod.fst).Nodup
  idsND : (s.order.map Node.id).Nodup
  keysND : (s.order.map Node.key).Nodup
  mem_to : ∀ n ∈ s.order, dictGet s.cache n.key = some n.id
  to_mem : ∀ k i, dictGet s.cache k = some i →
    ∃ n, n ∈ s.order ∧ n.key = k ∧ n.id = i
  len_eq : s.cache.length = s.order.length
  fresh : ∀ n ∈ s.order, n.id < s.nextId
  notFull : s.full = false → s.cache.length < max 1 s.maxsize
  isFull : s.full = true → 1 ≤ s.cache.length
  cap : s.cache.length ≤ max 1 s.maxsize

theorem lruInv_init (N : Nat) : LruInv (LruCache.init N : LruState K V) := by
  refine ⟨?_, ?_, ?_, ?_, ?_, ?_, ?_, ?_, ?_, ?_⟩ <;>
    simp [LruCache.init, dictGet]

theorem lruInv_order_key_ne (s : LruState K V) (h : LruInv s) (k : K)
    (hk : dictGet s.cache k = none) : ∀ n ∈ s.order, n.key ≠ k := by
  intro n hn he
  have := h.mem_to n hn
  rw [he, hk] at this
  cases this

theorem lruInv_find (s : LruState K V) (h : LruInv s) (k : K) (i : Nat)
    (hget : dictGet s.cache k = some i) :
    ∃ n, s.order.find? (fun m => m.id == i) = some n ∧
      n ∈ s.order ∧ n.key = k ∧ n.id = i := by
  obtain ⟨n, hn, hkey, hid⟩ := h.to_mem k i hget
  refine ⟨n, ?_, hn, hkey, hid⟩
  rw [← hid]
  exact find?_id_eq_of_mem _ h.idsND n hn

theorem lruInv_get (s : LruState K V) (h : LruInv s) (k : K) :
    LruInv (LruCache.get s k).1 ∧ (LruCache.get s k).1.cache = s.cache ∧
      (LruCache.get s k).1.maxsize = s.maxsize ∧
      (LruCache.get s k).1.full = s.full := by
  rcases hg : dictGet s.cache k with _ | i
  · have : (LruCache.get s k).1 = { s with misses := s.misses + 1 } := by
      simp [LruCache.get, hg]
    rw [this]
    exact ⟨⟨h.cacheND, h.idsND, h.keysND, h.mem_to, h.to_mem, h.len_eq,
      h.fresh, h.notFull, h.isFull, h.cap⟩, rfl, rfl, rfl⟩
  · obtain ⟨n, hfind, hn, hkey, hid⟩ := lruInv_find s h k i hg
    have hstate : (LruCache.get s k).1 =
        { s with order := s.order.filter (fun m => m.id != i) ++ [n],
                 hits := s.hits + 1 } := by
      simp [LruCache.get, hg, hfind]
    have hperm : List.Perm (s.order.filter (fun m => m.id != i) ++ [n]) s.order :=
      filter_append_perm_of_find? s.order i n h.idsND hfind
    rw [hstate]
    refine ⟨⟨h.cacheND, ?_, ?_, ?_, ?_, ?_, ?_, h.notFull, h.isFull, h.cap⟩,
      rfl, rfl, rfl⟩
    · exact ((hperm.map Node.id).nodup_iff).mpr h.idsND
    · exact ((hperm.map Node.key).nodup_iff).mpr h.keysND
    · intro m hm
      exact h.mem_to m (hperm.mem_iff.mp hm)
    · intro k' i' hget'
      obtain ⟨m, hm, hk', hi'⟩ := h.to_mem k' i' hget'
      exact ⟨m, hperm.mem_iff.mpr hm, hk', hi'⟩
    · rw [h.len_eq, hperm.length_eq]
    · intro m hm
      exact h.fresh m (hperm.mem_iff.mp hm)

theorem lruInv_clear (s : LruState K V) (_h : LruInv s) :
    LruInv (LruCache.clear s) ∧ (LruCache.clear s).maxsize = s.maxsize := by
  refine ⟨⟨?_, ?_, ?_, ?_, ?_, ?_, ?_, ?_, ?_, ?_⟩, rfl⟩ <;>
    simp [LruCache.clear, dictGet]


theorem lruInv_set_present (s : LruState K V) (h : LruInv s) (k : K) (v : V)
    (i : Nat) (hg : dictGet s.cache k = some i) :
    LruCache.set s k v = some { s with order := s.order.map (updNode i v) } ∧
      LruInv { s with order := s.order.map (updNode i v) } := by
  refine ⟨by simp [LruCache.set, hg], ?_⟩
  refine ⟨h.cacheND, ?_, ?_, ?_, ?_, ?_, ?_, h.notFull, h.isFull, h.cap⟩ <;> dsimp only
  · rw [map_id_map_updNode]
    exact h.idsND
  · rw [map_key_map_updNode]
    exact h.keysND
  · intro m hm
    obtain ⟨n, hn, rfl⟩ := List.mem_map.mp hm
    rw [updNode_key, updNode_id]
    exact h.mem_to n hn
  · intro k' i' hget'
    obtain ⟨n, hn, hk', hi'⟩ := h.to_mem k' i' hget'
    exact ⟨updNode i v n, List.mem_map.mpr ⟨n, hn, rfl⟩,
      by rw [updNode_key]; exact hk', by rw [updNode_id]; exact hi'⟩
  · rw [List.length_map]
    exact h.len_eq
  · intro m hm
    obtain ⟨n, hn, rfl⟩ := List.mem_map.mp hm
    rw [updNode_id]
    exact h.fresh n hn

theorem lruInv_set_insert (s : LruState K V) (h : LruInv s) (k : K) (v : V)
    (hg : dictGet s.cache k = none) (hfull : s.full = false) :
    LruCache.set s k v = some
      { s with
        order := s.order ++ [⟨s.nextId, k, v⟩],
        cache := dictSet s.cache k s.nextId,
        nextId := s.nextId + 1,
        full := decide ((dictSet s.cache k s.nextId).length ≥ s.maxsize) } ∧
      LruInv { s with
        order := s.order ++ [⟨s.nextId, k, v⟩],
        cache := dictSet s.cache k s.nextId,
        nextId := s.nextId + 1,
        full := decide ((dictSet s.cache k s.nextId).length ≥ s.maxsize) } := by
  have hknotin : k ∉ s.cache.map Prod.fst := (dictGet_eq_none_iff _ _).mp hg
  have hkorder : ∀ n ∈ s.order, n.key ≠ k := lruInv_order_key_ne s h k hg
  have hcacheq : dictSet s.cache k s.nextId = s.cache ++ [(k, s.nextId)] :=
    dictSet_of_not_mem _ _ _ hknotin
  have hlen' : (dictSet s.cache k s.nextId).length = s.cache.length + 1 :=
    dictSet_length_of_not_mem _ _ _ hknotin
  refine ⟨by simp [LruCache.set, hg, hfull], ?_⟩
  refine ⟨?_, ?_, ?_, ?_, ?_, ?_, ?_, ?_, ?_, ?_⟩ <;> dsimp only
  · rw [hcacheq]
    simp only [List.map_append, List.map_cons, List.map_nil]
    rw [List.nodup_append]
    exact ⟨h.cacheND, List.nodup_singleton k, by simpa using hknotin⟩
  · simp only [List.map_append, List.map_cons, List.map_nil]
    rw [List.nodup_append]
    refine ⟨h.idsND, List.nodup_singleton _, ?_⟩
    intro j hj
    simp only [List.mem_map] at hj
    obtain ⟨n, hn, rfl⟩ := hj
    have := h.fresh n hn
    simp only [List.mem_singleton]
    omega
  · simp only [List.map_append, List.map_cons, List.map_nil]
    rw [List.nodup_append]
    refine ⟨h.keysND, List.nodup_singleton _, ?_⟩
    intro k' hk'
    simp only [List.mem_map] at hk'
    obtain ⟨n, hn, rfl⟩ := hk'
    simp only [List.mem_singleton]
    exact hkorder n hn
  · intro n hn
    rcases List.mem_append.mp hn with hn | hn
    · rw [dictGet_dictSet_ne _ _ _ _ (fun he => hkorder n hn he.symm)]
      exact h.mem_to n hn
    · rw [List.mem_singleton] at hn
      subst hn
      exact dictGet_dictSet_self _ _ _
  · intro k' i' hget'
    by_cases hkk : k' = k
    · subst hkk
      rw [dictGet_dictSet_self] at hget'
      cases hget'
      exact ⟨⟨s.nextId, k', v⟩, by simp, rfl, rfl⟩
    · rw [dictGet_dictSet_ne _ _ _ _ (fun he => hkk he.symm)] at hget'
      obtain ⟨n, hn, hk', hi'⟩ := h.to_mem k' i' hget'
      exact ⟨n, List.mem_append.mpr (Or.inl hn), hk', hi'⟩
  · have hle := h.len_eq
    simp only [hlen', List.length_append, List.length_cons, List.length_nil]
    omega
  · intro n hn
    rcases List.mem_append.mp hn with hn | hn
    · have := h.fresh n hn
      omega
    · rw [List.mem_singleton] at hn
      subst hn
      exact Nat.lt_succ_self _
  · intro hf
    have hnotge := of_decide_eq_false hf
    have hlt : (dictSet s.cache k s.nextId).length < s.maxsize := by omega
    calc (dictSet s.cache k s.nextId).length < s.maxsize := hlt
      _ ≤ max 1 s.maxsize := le_max_right _ _
  · intro _
    rw [hlen']
    omega
  · rw [hlen']
    have := h.notFull hfull
    omega

theorem lruInv_set_evict (s : LruState K V) (h : LruInv s) (k : K) (v : V)
    (hg : dictGet s.cache k = none) (hfull : s.full = true)
    (hd : Node K V) (t : List (Node K V)) (horder : s.order = hd :: t)
    (cache₁ : List (K × Nat)) (hdel : dictDel s.cache hd.key = some cache₁) :
    LruCache.set s k v = some
      { s with
        order := t ++ [⟨s.nextId, k, v⟩],
        cache := dictSet cache₁ k s.nextId,
        nextId := s.nextId + 1 } ∧
      LruInv { s with
        order := t ++ [⟨s.nextId, k, v⟩],
        cache := dictSet cache₁ k s.nextId,
        nextId := s.nextId + 1 } := by
  have hknotin : k ∉ s.cache.map Prod.fst := (dictGet_eq_none_iff _ _).mp hg
  have hkorder : ∀ n ∈ s.order, n.key ≠ k := lruInv_order_key_ne s h k hg
  have hsub := dictDel_map_fst_sublist _ _ _ hdel
  have hknotin₁ : k ∉ cache₁.map Prod.fst := fun hm => hknotin (hsub.subset hm)
  have hcacheq : dictSet cache₁ k s.nextId = cache₁ ++ [(k, s.nextId)] :=
    dictSet_of_not_mem _ _ _ hknotin₁
  have hc₁ND : (cache₁.map Prod.fst).Nodup := dictDel_nodup _ _ _ h.cacheND hdel
  have hlen₁ : cache₁.length + 1 = s.cache.length := dictDel_length _ _ _ hdel
  have hlen' : (dictSet cache₁ k s.nextId).length = cache₁.length + 1 :=
    dictSet_length_of_not_mem _ _ _ hknotin₁
  have htmem : ∀ n ∈ t, n ∈ s.order := by
    intro n hn
    rw [horder]
    exact List.mem_cons_of_mem hd hn
  have hkND : (t.map Node.key).Nodup ∧ hd.key ∉ t.map Node.key := by
    have hk := h.keysND
    rw [horder] at hk
    simp only [List.map_cons, List.nodup_cons] at hk
    exact ⟨hk.2, hk.1⟩
  have hiND : (t.map Node.id).Nodup := by
    have hk := h.idsND
    rw [horder] at hk
    simp only [List.map_cons, List.nodup_cons] at hk
    exact hk.2
  refine ⟨by simp [LruCache.set, hg, hfull, horder, hdel], ?_⟩
  refine ⟨?_, ?_, ?_, ?_, ?_, ?_, ?_, ?_, ?_, ?_⟩ <;> dsimp only
  · rw [hcacheq]
    simp only [List.map_append, List.map_cons, List.map_nil]
    rw [List.nodup_append]
    exact ⟨hc₁ND, List.nodup_singleton k, by simpa using hknotin₁⟩
  · simp only [List.map_append, List.map_cons, List.map_nil]
    rw [List.nodup_append]
    refine ⟨hiND, List.nodup_singleton _, ?_⟩
    intro j hj
    simp only [List.mem_map] at hj
    obtain ⟨n, hn, rfl⟩ := hj
    have := h.fresh n (htmem n hn)
    simp only [List.mem_singleton]
    omega
  · simp only [List.map_append, List.map_cons, List.map_nil]
    rw [List.nodup_append]
    refine ⟨hkND.1, List.nodup_singleton _, ?_⟩
    intro k' hk'
    simp only [List.mem_map] at hk'
    obtain ⟨n, hn, rfl⟩ := hk'
    simp only [List.mem_singleton]
    exact hkorder n (htmem n hn)
  · intro n hn
    rcases List.mem_append.mp hn with hn | hn
    · have hnk : n.key ≠ k := hkorder n (htmem n hn)
      have hnhd : n.key ≠ hd.key := by
        intro he
        exact hkND.2 (he ▸ List.mem_map.mpr ⟨n, hn, rfl⟩)
      rw [dictGet_dictSet_ne _ _ _ _ (fun he => hnk he.symm)]
      rw [dictGet_dictDel_ne _ _ _ _ hnhd hdel]
      exact h.mem_to n (htmem n hn)
    · rw [List.mem_singleton] at hn
      subst hn
      exact dictGet_dictSet_self _ _ _
  · intro k' i' hget'
    by_cases hkk : k' = k
    · subst hkk
      rw [dictGet_dictSet_self] at hget'
      cases hget'
      exact ⟨⟨s.nextId, k', v⟩, by simp, rfl, rfl⟩
    · rw [dictGet_dictSet_ne _ _ _ _ (fun he => hkk he.symm)] at hget'
      by_cases hhdk : k' = hd.key
      · subst hhdk
        rw [dictGet_dictDel_self _ _ _ h.cacheND hdel] at hget'
        cases hget'
      · rw [dictGet_dictDel_ne _ _ _ _ hhdk hdel] at hget'
        obtain ⟨n, hn, hk', hi'⟩ := h.to_mem k' i' hget'
        rw [horder] at hn
        rcases List.mem_cons.mp hn with hn | hn
        · exfalso
          exact hhdk (hk' ▸ hn ▸ rfl)
        · exact ⟨n, List.mem_append.mpr (Or.inl hn), hk', hi'⟩
  · have hol : s.order.length = t.length + 1 := by rw [horder]; rfl
    have hle := h.len_eq
    simp only [hlen', List.length_append, List.length_cons, List.length_nil]
    omega
  · intro n hn
    rcases List.mem_append.mp hn with hn | hn
    · have := h.fresh n (htmem n hn)
      omega
    · rw [List.mem_singleton] at hn
      subst hn
      exact Nat.lt_succ_self _
  · intro hf
    rw [hfull] at hf
    cases hf
  · intro _
    rw [hlen', hlen₁]
    exact h.isFull hfull
  · rw [hlen', hlen₁]
    exact h.cap

theorem lruInv_set (s : LruState K V) (h : LruInv s) (k : K) (v : V) :
    ∃ s', LruCache.set s k v = some s' ∧ LruInv s' ∧
      s'.maxsize = s.maxsize ∧ 1 ≤ s'.cache.length := by
  rcases hg : dictGet s.cache k with _ | i
  · rcases hfull : s.full with _ | _
    · obtain ⟨hset, hinv⟩ := lruInv_set_insert s h k v hg hfull
      refine ⟨_, hset, hinv, rfl, ?_⟩
      have : k ∉ s.cache.map Prod.fst := (dictGet_eq_none_iff _ _).mp hg
      have := dictSet_length_of_not_mem s.cache k s.nextId this
      simp only [this]
      omega
    · rcases horder : s.order with _ | ⟨hd, t⟩
      · exfalso
        have h1 := h.isFull hfull
        have h2 := h.len_eq
        rw [horder] at h2
        simp only [List.length_nil] at h2
        omega
      · have hhd : hd ∈ s.order := by
          rw [horder]
          exact List.mem_cons_self hd t
        obtain ⟨cache₁, hdel⟩ := dictDel_isSome_of_get _ _ _ (h.mem_to hd hhd)
        obtain ⟨hset, hinv⟩ := lruInv_set_evict s h k v hg hfull hd t horder cache₁ hdel
        refine ⟨_, hset, hinv, rfl, ?_⟩
        have hknotin₁ : k ∉ cache₁.map Prod.fst := fun hm =>
          ((dictGet_eq_none_iff _ _).mp hg) ((dictDel_map_fst_sublist _ _ _ hdel).subset hm)
        have := dictSet_length_of_not_mem cache₁ k s.nextId hknotin₁
        simp only [this]
        omega
  · obtain ⟨hset, hinv⟩ := lruInv_set_present s h k v i hg
    refine ⟨_, hset, hinv, rfl, ?_⟩
    show 1 ≤ s.cache.length
    rcases hc : s.cache with _ | ⟨p, rest⟩
    · rw [hc] at hg
      cases hg
    · simp

theorem lruInv_step (s : LruState K V) (h : LruInv s) (o : LruOp K V)
    (hno : LruOp.notDelete o = true) :
    ∃ s', LruOp.step s o = some s' ∧ LruInv s' ∧ s'.maxsize = s.maxsize := by
  cases o with
  | get k =>
      obtain ⟨hinv, _, hmax, _⟩ := lruInv_get s h k
      exact ⟨_, rfl, hinv, hmax⟩
  | set k v =>
      obtain ⟨s', hset, hinv, hmax, _⟩ := lruInv_set s h k v
      exact ⟨s', hset, hinv, hmax⟩
  | delete k => cases hno
  | clear =>
      obtain ⟨hinv, hmax⟩ := lruInv_clear s h
      exact ⟨_, rfl, hinv, hmax⟩

theorem lruInv_runTrace (s : LruState K V) (h : LruInv s) (t : List (LruOp K V))
    (hno : ∀ o ∈ t, LruOp.notDelete o = true) :
    ∃ s', LruOp.runTrace s t = some s' ∧ LruInv s' ∧ s'.maxsize = s.maxsize := by
  induction t generalizing s with
  | nil => exact ⟨s, rfl, h, rfl⟩
  | cons o rest ih =>
      obtain ⟨s₁, hstep, hinv₁, hmax₁⟩ :=
        lruInv_step s h o (hno o (List.mem_cons_self o rest))
      obtain ⟨s', hrun, hinv', hmax'⟩ :=
        ih s₁ hinv₁ (fun o' ho' => hno o' (List.mem_cons_of_mem o ho'))
      refine ⟨s', ?_, hinv', hmax'.trans hmax₁⟩
      rw [LruOp.runTrace, hstep]
      exact hrun

/-- The value currently stored for `key`: the `RESULT` field of the link
that the dict references for `key` (what a `get` would return without
touching the statistics or the recency order). -/
def valueAt (s : LruState K V) (key : K) : Option V :=
  match dictGet s.cache key with
  | some i => (s.order.find? (fun m => m.id == i)).map Node.result
  | none => none

theorem get_snd_eq_valueAt (s : LruState K V) (k : K) :
    (LruCache.get s k).2 = valueAt s k := by
  unfold LruCache.get valueAt
  rcases hg : dictGet s.cache k with _ | i
  · rfl
  · rcases hf : s.order.find? (fun m => m.id == i) with _ | n <;> simp [hf]

theorem lruInv_id_inj (s : LruState K V) (h : LruInv s) (n m : Node K V)
    (hn : n ∈ s.order) (hm : m ∈ s.order) (he : n.id = m.id) : n = m :=
  List.inj_on_of_nodup_map h.idsND hn hm he

theorem lruInv_get_id_inj (s : LruState K V) (h : LruInv s) (k k' : K)
    (i i' : Nat) (hk : dictGet s.cache k = some i)
    (hk' : dictGet s.cache k' = some i') (hkk : k ≠ k') : i ≠ i' := by
  intro he
  obtain ⟨n, hn, hnk, hni⟩ := h.to_mem k i hk
  obtain ⟨n', hn', hnk', hni'⟩ := h.to_mem k' i' hk'
  have : n = n' := lruInv_id_inj s h n n' hn hn' (by rw [hni, hni', he])
  exact hkk (by rw [← hnk, ← hnk', this])

theorem valueAt_set_self (s : LruState K V) (h : LruInv s) (k : K) (v : V)
    (s' : LruState K V) (hset : LruCache.set s k v = some s') :
    valueAt s' k = some v := by
  rcases hg : dictGet s.cache k with _ | i
  · rcases hfull : s.full with _ | _
    · obtain ⟨hset', _⟩ := lruInv_set_insert s h k v hg hfull
      rw [hset'] at hset
      cases hset
      have hpre : s.order.find? (fun m => m.id == s.nextId) = none := by
        rw [List.find?_eq_none]
        intro n hn
        have := h.fresh n hn
        simp
        omega
      simp [valueAt, dictGet_dictSet_self, find?_append_of_none _ _ _ hpre,
        List.find?_cons]
    · rcases horder : s.order with _ | ⟨hd, t⟩
      · exfalso
        have h1 := h.isFull hfull
        have h2 := h.len_eq
        rw [horder] at h2
        simp only [List.length_nil] at h2
        omega
      · have hhd : hd ∈ s.order := by
          rw [horder]
          exact List.mem_cons_self hd t
        obtain ⟨cache₁, hdel⟩ := dictDel_isSome_of_get _ _ _ (h.mem_to hd hhd)
        obtain ⟨hset', _⟩ := lruInv_set_evict s h k v hg hfull hd t horder cache₁ hdel
        rw [hset'] at hset
        cases hset
        have hpre : t.find? (fun m => m.id == s.nextId) = none := by
          rw [List.find?_eq_none]
          intro n hn
          have hmem : n ∈ s.order := by
            rw [horder]
            exact List.mem_cons_of_mem hd hn
          have := h.fresh n hmem
          simp
          omega
        simp [valueAt, dictGet_dictSet_self, find?_append_of_none _ _ _ hpre,
          List.find?_cons]
  · obtain ⟨hset', _⟩ := lruInv_set_present s h k v i hg
    rw [hset'] at hset
    cases hset
    obtain ⟨n, hfind, hn, hnk, hni⟩ := lruInv_find s h k i hg
    have hupd : updNode i v n = { n with result := v } := by
      unfold updNode
      simp [hni]
    have hcomp : ((fun m => m.id == i) ∘ updNode i v) =
        (fun (m : Node K V) => m.id == i) := by
      funext m
      simp [updNode_id]
    simp only [valueAt, hg, List.find?_map, hcomp, hfind]
    simp [hupd]

theorem valueAt_step_preserve (s : LruState K V) (h : LruInv s) (k : K)
    (o : LruOp K V) (hnd : LruOp.notDelete o = true)
    (hns : LruOp.notSetOn k o = true) (s' : LruState K V)
    (hstep : LruOp.step s o = some s') :
    valueAt s' k = valueAt s k ∨ valueAt s' k = none := by
  cases o with
  | clear =>
      simp only [LruOp.step, Option.some.injEq] at hstep
      subst hstep
      right
      rfl
  | delete _ => cases hnd
  | get k' =>
      simp only [LruOp.step, Option.some.injEq] at hstep
      subst hstep
      rcases hg' : dictGet s.cache k' with _ | i'
      · left
        have hstate : (LruCache.get s k').1 = { s with misses := s.misses + 1 } := by
          simp [LruCache.get, hg']
        rw [hstate]
        rfl
      · obtain ⟨n', hfind', hn', hk'eq, hi'⟩ := lruInv_find s h k' i' hg'
        have hstate : (LruCache.get s k').1 =
            { s with order := s.order.filter (fun m => m.id != i') ++ [n'],
                     hits := s.hits + 1 } := by
          simp [LruCache.get, hg', hfind']
        rw [hstate]
        rcases hg : dictGet s.cache k with _ | i
        · left
          simp [valueAt, hg]
        · left
          obtain ⟨n, hfind, hn, hnk, hni⟩ := lruInv_find s h k i hg
          have hperm := filter_append_perm_of_find? s.order i' n' h.idsND hfind'
          have hidsND' :
              ((s.order.filter (fun m => m.id != i') ++ [n']).map Node.id).Nodup :=
            ((hperm.map Node.id).nodup_iff).mpr h.idsND
          have hnmem' : n ∈ s.order.filter (fun m => m.id != i') ++ [n'] := by
            by_cases hik : i = i'
            · have he : n = n' := lruInv_id_inj s h n n' hn hn' (by rw [hni, hi', hik])
              subst he
              exact List.mem_append.mpr (Or.inr (List.mem_singleton.mpr rfl))
            · refine List.mem_append.mpr (Or.inl ?_)
              refine List.mem_filter.mpr ⟨hn, ?_⟩
              simp [hni, hik]
          have hfindNew : (s.order.filter (fun m => m.id != i') ++ [n']).find?
              (fun m => m.id == i) = some n := by
            rw [← hni]
            exact find?_id_eq_of_mem _ hidsND' n hnmem'
          simp [valueAt, hg, hfindNew, hfind]
  | set k' v' =>
      have hkk : k' ≠ k := by simpa [LruOp.notSetOn] using hns
      simp only [LruOp.step] at hstep
      rcases hg' : dictGet s.cache k' with _ | i'
      · rcases hfull : s.full with _ | _
        · obtain ⟨hset', hinv'⟩ := lruInv_set_insert s h k' v' hg' hfull
          rw [hset'] at hstep
          cases hstep
          rcases hg : dictGet s.cache k with _ | i
          · left
            simp [valueAt, dictGet_dictSet_ne _ _ _ _ hkk, hg]
          · left
            obtain ⟨n, hfind, hn, hnk, hni⟩ := lruInv_find s h k i hg
            have hfindNew : (s.order ++ [(⟨s.nextId, k', v'⟩ : Node K V)]).find?
                (fun m => m.id == i) = some n := find?_append_of_some _ _ _ _ hfind
            simp [valueAt, dictGet_dictSet_ne _ _ _ _ hkk, hg, hfindNew, hfind]
        · rcases horder : s.order with _ | ⟨hd, t⟩
          · exfalso
            have h1 := h.isFull hfull
            have h2 := h.len_eq
            rw [horder] at h2
            simp only [List.length_nil] at h2
            omega
          · have hhd : hd ∈ s.order := by
              rw [horder]
              exact List.mem_cons_self hd t
            obtain ⟨cache₁, hdel⟩ := dictDel_isSome_of_get _ _ _ (h.mem_to hd hhd)
            obtain ⟨hset', hinv'⟩ :=
              lruInv_set_evict s h k' v' hg' hfull hd t horder cache₁ hdel
            rw [hset'] at hstep
            cases hstep
            by_cases hkhd : k = hd.key
            · right
              have h1 : dictGet cache₁ k = none := by
                rw [hkhd]
                exact dictGet_dictDel_self _ _ _ h.cacheND hdel
              simp [valueAt, dictGet_dictSet_ne _ _ _ _ hkk, h1]
            · have h2 : dictGet cache₁ k = dictGet s.cache k :=
                dictGet_dictDel_ne _ _ _ _ hkhd hdel
              rcases hg : dictGet s.cache k with _ | i
              · left
                simp [valueAt, dictGet_dictSet_ne _ _ _ _ hkk, h2, hg]
              · left
                obtain ⟨n, hfind, hn, hnk, hni⟩ := lruInv_find s h k i hg
                have hnt : n ∈ t := by
                  rw [horder] at hn
                  rcases List.mem_cons.mp hn with he | ht
                  · exact absurd (by rw [← hnk, he]) hkhd
                  · exact ht
                have hidsND' : ((t ++ [(⟨s.nextId, k', v'⟩ : Node K V)]).map Node.id).Nodup :=
                  hinv'.idsND
                have hmem' : n ∈ t ++ [(⟨s.nextId, k', v'⟩ : Node K V)] :=
                  List.mem_append.mpr (Or.inl hnt)
                have hfindNew : (t ++ [(⟨s.nextId, k', v'⟩ : Node K V)]).find?
                    (fun m => m.id == i) = some n := by
                  rw [← hni]
                  exact find?_id_eq_of_mem _ hidsND' n hmem'
                simp [valueAt, dictGet_dictSet_ne _ _ _ _ hkk, h2, hg, hfindNew, hfind]
      · obtain ⟨hset', hinv'⟩ := lruInv_set_present s h k' v' i' hg'
        rw [hset'] at hstep
        cases hstep
        rcases hg : dictGet s.cache k with _ | i
        · left
          simp [valueAt, hg]
        · left
          obtain ⟨n, hfind, hn, hnk, hni⟩ := lruInv_find s h k i hg
          have hii : i ≠ i' :=
            lruInv_get_id_inj s h k k' i i' hg hg' (fun he => hkk he.symm)
          have hupd : updNode i' v' n = n := by
            unfold updNode
            simp [hni, hii]
          have hfindNew : (s.order.map (updNode i' v')).find?
              (fun m => m.id == i) = some n := by
            rw [find?_map_updNode, hfind, Option.map_some', hupd]
          simp [valueAt, hg, hfindNew, hfind]

theorem valueAt_runTrace_preserve (s : LruState K V) (h : LruInv s) (k : K)
    (t : List (LruOp K V)) (hnd : ∀ o ∈ t, LruOp.notDelete o = true)
    (hns : ∀ o ∈ t, LruOp.notSetOn k o = true) (s' : LruState K V)
    (hrun : LruOp.runTrace s t = some s') :
    valueAt s' k = valueAt s k ∨ valueAt s' k = none := by
  induction t generalizing s with
  | nil =>
      rw [LruOp.runTrace] at hrun
      cases hrun
      exact Or.inl rfl
  | cons o rest ih =>
      rw [LruOp.runTrace] at hrun
      rcases hstep : LruOp.step s o with _ | s₁
      · rw [hstep] at hrun
        cases hrun
      · rw [hstep] at hrun
        have hinv₁ : LruInv s₁ := by
          obtain ⟨s₂, hs, hinv₂, _⟩ :=
            lruInv_step s h o (hnd o (List.mem_cons_self o rest))
          rw [hstep] at hs
          cases hs
          exact hinv₂
        have h1 := valueAt_step_preserve s h k o (hnd o (List.mem_cons_self o rest))
          (hns o (List.mem_cons_self o rest)) s₁ hstep
        have h2 := ih s₁ hinv₁ (fun o' ho' => hnd o' (List.mem_cons_of_mem o ho'))
          (fun o' ho' => hns o' (List.mem_cons_of_mem o ho')) hrun
        rcases h2 with h2 | h2
        · rcases h1 with h1 | h1
          · exact Or.inl (h2.trans h1)
          · exact Or.inr (h2.trans h1)
        · exact Or.inr h2

theorem valueAt_of_present (s : LruState K V) (h : LruInv s) (k : K) (i : Nat)
    (hg : dictGet s.cache k = some i) :
    ∃ n, valueAt s k = some (Node.result n) ∧ n.key = k ∧ n.id = i ∧
      n ∈ s.order := by
  obtain ⟨n, hfind, hn, hnk, hni⟩ := lruInv_find s h k i hg
  refine ⟨n, ?_, hnk, hni, hn⟩
  simp [valueAt, hg, hfind]

end Invariant

/-! ### Filling an empty engine with distinct fresh keys -/

section Fill

variable {K V : Type} [DecidableEq K]

/-- The dict after inserting the pairs in order, links numbered from `i`. -/
def mkCache : Nat → List (K × V) → List (K × Nat)
  | _, [] => []
  | i, (k, _) :: t => (k, i) :: mkCache (i + 1) t

/-- The circular list after inserting the pairs in order (LRU first). -/
def mkNodes : Nat → List (K × V) → List (Node K V)
  | _, [] => []
  | i, (k, v) :: t => ⟨i, k, v⟩ :: mkNodes (i + 1) t

/-- The engine state after `set`-inserting `kvs` (distinct fresh keys, at
most `N` of them) in order into an empty engine of capacity `N ≥ 1`. -/
def mkFilled (N : Nat) (kvs : List (K × V)) : LruState K V :=
  { cache := mkCache 0 kvs, order := mkNodes 0 kvs,
    full := decide (kvs.length ≥ N), hits := 0, misses := 0,
    maxsize := N, nextId := kvs.length }

theorem mkCache_append (i : Nat) (l₁ l₂ : List (K × V)) :
    mkCache i (l₁ ++ l₂) = mkCache i l₁ ++ mkCache (i + l₁.length) l₂ := by
  induction l₁ generalizing i with
  | nil => simp [mkCache]
  | cons p t ih =>
      obtain ⟨k, v⟩ := p
      simp only [List.cons_append, mkCache, List.append_eq, ih, List.length_cons]
      rw [show i + (t.length + 1) = i + 1 + t.length by omega]

theorem mkNodes_append (i : Nat) (l₁ l₂ : List (K × V)) :
    mkNodes i (l₁ ++ l₂) = mkNodes i l₁ ++ mkNodes (i + l₁.length) l₂ := by
  induction l₁ generalizing i with
  | nil => simp [mkNodes]
  | cons p t ih =>
      obtain ⟨k, v⟩ := p
      simp only [List.cons_append, mkNodes, List.append_eq, ih, List.length_cons]
      rw [show i + (t.length + 1) = i + 1 + t.length by omega]

theorem mkCache_map_fst (i : Nat) (kvs : List (K × V)) :
    (mkCache i kvs).map Prod.fst = kvs.map Prod.fst := by
  induction kvs generalizing i with
  | nil => rfl
  | cons p t ih =>
      obtain ⟨k, v⟩ := p
      simp [mkCache, ih]

theorem mkCache_length (i : Nat) (kvs : List (K × V)) :
    (mkCache i kvs).length = kvs.length := by
  induction kvs generalizing i with
  | nil => rfl
  | cons p t ih =>
      obtain ⟨k, v⟩ := p
      simp [mkCache, ih]

theorem dictGet_mkCache_not_mem (i : Nat) (kvs : List (K × V)) (k : K)
    (h : k ∉ kvs.map Prod.fst) : dictGet (mkCache i kvs) k = none := by
  rw [dictGet_eq_none_iff, mkCache_map_fst]
  exact h

/-- The pure branch equation of `set` for an absent key in a non-full
engine. -/
theorem set_insert_eq (s : LruState K V) (k : K) (v : V)
    (hg : dictGet s.cache k = none) (hfull : s.full = false) :
    LruCache.set s k v = some
      { s with
        order := s.order ++ [⟨s.nextId, k, v⟩],
        cache := dictSet s.cache k s.nextId,
        nextId := s.nextId + 1,
        full := decide ((dictSet s.cache k s.nextId).length ≥ s.maxsize) } := by
  simp [LruCache.set, hg, hfull]

theorem runSets_fill (N : Nat) (done rem : List (K × V))
    (hnd : ((done ++ rem).map Prod.fst).Nodup)
    (hlen : done.length + rem.length ≤ N) :
    LruOp.runTrace (mkFilled N done : LruState K V) (LruOp.setsOf rem) =
      some (mkFilled N (done ++ rem)) := by
  induction rem generalizing done with
  | nil => simp [LruOp.setsOf, LruOp.runTrace]
  | cons kv rest ih =>
      obtain ⟨k, v⟩ := kv
      have hksplit : (done ++ (k, v) :: rest).map Prod.fst =
          done.map Prod.fst ++ k :: rest.map Prod.fst := by simp
      have hknotdone : k ∉ done.map Prod.fst := by
        rw [hksplit] at hnd
        have := (List.nodup_append.mp hnd).2.2
        intro hk
        exact this hk (List.mem_cons_self k _)
      have hg : dictGet (mkFilled N done : LruState K V).cache k = none :=
        dictGet_mkCache_not_mem 0 done k hknotdone
      have hfull : (mkFilled N done : LruState K V).full = false := by
        have : ¬ (done.length ≥ N) := by
          simp only [List.length_cons] at hlen
          omega
        simp [mkFilled, this]
      have hset := set_insert_eq (mkFilled N done) k v hg hfull
      have hstate : ({ (mkFilled N done : LruState K V) with
          order := (mkFilled N done : LruState K V).order ++
            [⟨(mkFilled N done : LruState K V).nextId, k, v⟩],
          cache := dictSet (mkFilled N done : LruState K V).cache k
            (mkFilled N done : LruState K V).nextId,
          nextId := (mkFilled N done : LruState K V).nextId + 1,
          full := decide ((dictSet (mkFilled N done : LruState K V).cache k
            (mkFilled N done : LruState K V).nextId).length ≥
            (mkFilled N done : LruState K V).maxsize) } : LruState K V) =
          mkFilled N (done ++ [(k, v)]) := by
        have hdset : dictSet (mkCache 0 done) k done.length =
            mkCache 0 done ++ [(k, done.length)] := by
          apply dictSet_of_not_mem
          rw [mkCache_map_fst]
          exact hknotdone
        have hdlen : (dictSet (mkCache 0 done) k done.length).length =
            done.length + 1 := by
          rw [hdset]
          simp [mkCache_length]
        simp only [mkFilled, mkCache_append, mkNodes_append, hdset, hdlen]
        simp [mkCache, mkNodes, List.length_append, mkCache_length]
      rw [LruOp.setsOf, List.map_cons]
      rw [LruOp.runTrace]
      simp only [LruOp.step, hset, hstate]
      have hnd' : (((done ++ [(k, v)]) ++ rest).map Prod.fst).Nodup := by
        rw [List.append_assoc]
        simpa using hnd
      have hlen' : (done ++ [(k, v)]).length + rest.length ≤ N := by
        simp only [List.length_append, List.length_cons, List.length_nil]
        simp only [List.length_cons] at hlen
        omega
      have := ih (done ++ [(k, v)]) hnd' hlen'
      rw [show (done ++ [(k, v)]) ++ rest = done ++ (k, v) :: rest by simp] at this
      exact this

theorem runSets_from_init (N : Nat) (hN : 1 ≤ N) (kvs : List (K × V))
    (hnd : (kvs.map Prod.fst).Nodup) (hlen : kvs.length ≤ N) :
    LruOp.runTrace (LruCache.init N : LruState K V) (LruOp.setsOf kvs) =
      some (mkFilled N kvs) := by
  have h0 : (LruCache.init N : LruState K V) = mkFilled N [] := by
    have hdec : decide ((0 : Nat) ≥ N) = false := decide_eq_false (by omega)
    simp [LruCache.init, mkFilled, mkCache, mkNodes, hdec]
    omega
  rw [h0]
  have := runSets_fill N [] kvs (by simpa using hnd) (by simpa using hlen)
  simpa using this

end Fill

/-! ### Further helper lemmas for the claims -/

section MoreHelpers

variable {K V : Type} [DecidableEq K]

theorem dictGet_append_none {A : Type} (l₁ l₂ : List (K × A)) (k : K)
    (h : dictGet l₁ k = none) : dictGet (l₁ ++ l₂) k = dictGet l₂ k := by
  induction l₁ with
  | nil => rfl
  | cons p t ih =>
      obtain ⟨k', a⟩ := p
      by_cases hk : k' = k
      · rw [hk, dictGet_cons_self] at h
        cases h
      · rw [dictGet_cons_ne _ _ _ _ hk] at h
        rw [List.cons_append, dictGet_cons_ne _ _ _ _ hk]
        exact ih h

theorem dictGet_append_some {A : Type} (l₁ l₂ : List (K × A)) (k : K) (a : A)
    (h : dictGet l₁ k = some a) : dictGet (l₁ ++ l₂) k = some a := by
  induction l₁ with
  | nil => cases h
  | cons p t ih =>
      obtain ⟨k', b⟩ := p
      by_cases hk : k' = k
      · rw [hk, dictGet_cons_self] at h
        cases h
        rw [List.cons_append, hk, dictGet_cons_self]
      · rw [dictGet_cons_ne _ _ _ _ hk] at h
        rw [List.cons_append, dictGet_cons_ne _ _ _ _ hk]
        exact ih h

theorem mkNodes_id_ge (i : Nat) (kvs : List (K × V)) :
    ∀ n ∈ mkNodes i kvs, i ≤ n.id := by
  induction kvs generalizing i with
  | nil => intro n hn; cases hn
  | cons p t ih =>
      obtain ⟨k, v⟩ := p
      intro n hn
      rcases List.mem_cons.mp hn with he | ht
      · subst he
        exact le_refl i
      · exact le_trans (Nat.le_succ i) (ih (i + 1) n ht)

theorem dictGet_mkCache_isSome_of_mem (i : Nat) (kvs : List (K × V)) (k : K)
    (h : k ∈ kvs.map Prod.fst) : (dictGet (mkCache i kvs) k).isSome = true := by
  rw [dictGet_isSome_iff, mkCache_map_fst]
  exact h

/-- The pure branch equation of `set` for an absent key in a full engine. -/
theorem set_evict_eq (s : LruState K V) (k : K) (v : V)
    (hg : dictGet s.cache k = none) (hfull : s.full = true)
    (hd : Node K V) (t : List (Node K V)) (horder : s.order = hd :: t)
    (cache₁ : List (K × Nat)) (hdel : dictDel s.cache hd.key = some cache₁) :
    LruCache.set s k v = some
      { s with
        order := t ++ [⟨s.nextId, k, v⟩],
        cache := dictSet cache₁ k s.nextId,
        nextId := s.nextId + 1 } := by
  simp [LruCache.set, hg, hfull, horder, hdel]

/-- The pure branch equation of `get` on a hit. -/
theorem get_hit_eq (s : LruState K V) (k : K) (i : Nat) (n : Node K V)
    (hg : dictGet s.cache k = some i)
    (hfind : s.order.find? (fun m => m.id == i) = some n) :
    LruCache.get s k =
      ({ s with order := s.order.filter (fun m => m.id != i) ++ [n],
                hits := s.hits + 1 }, some n.result) := by
  simp [LruCache.get, hg, hfind]

/-- The pure branch equation of `get` on a miss. -/
theorem get_miss_eq (s : LruState K V) (k : K)
    (hg : dictGet s.cache k = none) :
    LruCache.get s k = ({ s with misses := s.misses + 1 }, none) := by
  simp [LruCache.get, hg]

theorem get_isSome_of_present (s : LruState K V) (h : LruInv s) (k : K)
    (i : Nat) (hg : dictGet s.cache k = some i) :
    (LruCache.get s k).2.isSome = true := by
  obtain ⟨n, hv, _, _, _⟩ := valueAt_of_present s h k i hg
  rw [get_snd_eq_valueAt, hv]
  rfl

theorem setsOf_notDelete (kvs : List (K × V)) :
    ∀ o ∈ LruOp.setsOf kvs, LruOp.notDelete o = true := by
  intro o ho
  obtain ⟨kv, _, rfl⟩ := List.mem_map.mp ho
  rfl

theorem setsOf_append (l₁ l₂ : List (K × V)) :
    LruOp.setsOf (l₁ ++ l₂) = LruOp.setsOf l₁ ++ LruOp.setsOf l₂ := by
  simp [LruOp.setsOf]

theorem runTrace_append (s : LruState K V) (t₁ t₂ : List (LruOp K V)) :
    LruOp.runTrace s (t₁ ++ t₂) =
      match LruOp.runTrace s t₁ with
      | some s₁ => LruOp.runTrace s₁ t₂
      | none => none := by
  induction t₁ generalizing s with
  | nil => simp [LruOp.runTrace]
  | cons o rest ih =>
      rw [List.cons_append, LruOp.runTrace, LruOp.runTrace]
      rcases LruOp.step s o with _ | s₁
      · rfl
      · exact ih s₁

end MoreHelpers

/-! ### `ring.coder`: coders, `coderize`, and the registry -/

/-- A Python callable, atomic for the registry.  The named constructors
are the concrete functions of `ring/coder.py` (`bypass`,
`JsonCoder.encode`/`decode`, `pickle.dumps`/`loads`); `fn` stands for an
arbitrary user-supplied callable.  The registry never calls or inspects
these, so they are atoms here. -/
inductive Func where
  | bypass
  | jsonEncode
  | jsonDecode
  | pickleDumps
  | pickleLoads
  | fn (n : Nat)
  deriving DecidableEq

/-- A Python object as seen by `coderize`: an instance of a concrete
`Coder` subclass, a `CoderTuple` (which is *both* a virtual `Coder`
subclass, by `Coder.register(CoderTuple)`, and a tuple), a plain
2-tuple, a `str` (which in Python 3 has an `encode` method but no
`decode`), or any other object with optional `encode`/`decode`
attributes. -/
inductive PyObj where
  | coderInst (encode decode : Func)
  | coderTuple (encode decode : Func)
  | tup (encode decode : Func)
  | pystr (s : String)
  | obj (encode decode : Option Func)
  deriving DecidableEq

/-- `isinstance(raw_coder, Coder)` — true for concrete subclass
instances and for `CoderTuple` (registered as a virtual subclass). -/
def PyObj.isCoder : PyObj → Bool
  | .coderInst _ _ => true
  | .coderTuple _ _ => true
  | _ => false

/-- `isinstance(raw_coder, tuple)` — `CoderTuple` subclasses `tuple`. -/
def PyObj.isTuple : PyObj → Bool
  | .coderTuple _ _ => true
  | .tup _ _ => true
  | _ => false

/-- `hasattr(raw_coder, 'encode')`. -/
def PyObj.hasEncodeAttr : PyObj → Bool
  | .coderInst _ _ => true
  | .coderTuple _ _ => true
  | .tup _ _ => false
  | .pystr _ => true
  | .obj e _ => e.isSome

/-- `hasattr(raw_coder, 'decode')`. -/
def PyObj.hasDecodeAttr : PyObj → Bool
  | .coderInst _ _ => true
  | .coderTuple _ _ => true
  | .tup _ _ => false
  | .pystr _ => false
  | .obj _ d => d.isSome

/-- The two `TypeError`s `coderize` can raise. -/
inductive CoderizeErr where
  | strNotRegistered
  | notCompatible
  deriving DecidableEq

/-- `ring.coder.coderize`, with the branches in source order:
`isinstance(_, Coder)`, then the `str` rejection, then tuple unpacking
into `CoderTuple`, then the encode/decode duck-typing check, else
`TypeError`. -/
def coderize : PyObj → Except CoderizeErr PyObj
  | p@(.coderInst _ _) => .ok p
  | p@(.coderTuple _ _) => .ok p
  | .pystr _ => .error .strNotRegistered
  | .tup e d => .ok (.coderTuple e d)
  | .obj oe od =>
      match oe, od with
      | some e, some d => .ok (.coderTuple e d)
      | _, _ => .error .notCompatible

/-- `ring.coder.Registry`: `coders` is the instance dict, keyed by the
coder alias (Python `None` is the `none` key). -/
structure Registry where
  coders : List (Option String × PyObj)
  deriving DecidableEq

namespace Registry

/-- `Registry.register`: `coderize` first (so a `TypeError` propagates
before any mutation), then `self.coders[coder_name] = coder`. -/
def register (r : Registry) (coder_name : Option String) (raw_coder : PyObj) :
    Except CoderizeErr Registry :=
  match coderize raw_coder with
  | .ok coder => .ok ⟨dictSet r.coders coder_name coder⟩
  | .error e => .error e

/-- `Registry.get`: `self.coders.get(coder_name)`. -/
def get (r : Registry) (coder_name : Option String) : Option PyObj :=
  dictGet r.coders coder_name

end Registry

/-- The module-level registration chain:
`registry.register(None, (bypass, bypass))`,
`registry.register('json', JsonCoder())`,
`registry.register('pickle', (pickle.dumps, pickle.loads))`. -/
def registryE : Except CoderizeErr Registry :=
  (Registry.register ⟨[]⟩ none (.tup .bypass .bypass)).bind fun r =>
    (r.register (some "json") (.coderInst .jsonEncode .jsonDecode)).bind fun r' =>
      r'.register (some "pickle") (.tup .pickleDumps .pickleLoads)

/-- The default module-level `registry` after import; the chain never
fails (every registered raw coder is accepted), so the error fallback is
dead. -/
def registry : Registry :=
  match registryE with
  | .ok r => r
  | .error _ => ⟨[]⟩

theorem dictSet_cons_ne {K A : Type} [DecidableEq K] (k key : K) (b a : A)
    (rest : List (K × A)) (h : k ≠ key) :
    dictSet ((k, b) :: rest) key a = (k, b) :: dictSet rest key a := by
  simp [dictSet, h]

/-! ### The claims -/

/-- C1 (counterexample): on an engine of capacity 2, after `set 1 10`,
`set 2 20`, key 1 is present (its link has identity 0), yet `set 1 99` —
a `set` on an existing key — leaves the recency order `[1, 2]` with key 2
(not key 1) at the most-recently-used position: `set` on a present key
does not promote the entry. -/
theorem lru_set_existing_no_promote_cex :
    (LruOp.runTrace (LruCache.init 2 : LruState Nat Nat)
        [.set 1 10, .set 2 20]).map (fun s => dictGet s.cache 1) =
      some (some 0) ∧
    (LruOp.runTrace (LruCache.init 2 : LruState Nat Nat)
        [.set 1 10, .set 2 20, .set 1 99]).map
      (fun s => ((s.order.map Node.key).getLast?, s.order.map Node.key)) =
      some (some 2, [1, 2]) := by
  exact ⟨by decide, by decide⟩

/-- C1 (amended): a successful `get` on an existing key moves that key's
link to the most-recently-used position (the last one before the root)
and returns its value; a `set` on an existing key overwrites the stored
result in place, leaving the recency order (keys and link identities, in
order), the dict, and the counters untouched — it does not promote. -/
theorem lru_get_promotes_set_overwrites_in_place {K V : Type} [DecidableEq K]
    (s : LruState K V) (k : K) (v : V) (i : Nat) (n : Node K V)
    (hg : dictGet s.cache k = some i)
    (hfind : s.order.find? (fun m => m.id == i) = some n) :
    ((LruCache.get s k).1.order.getLast? = some n ∧
      (LruCache.get s k).1.hits = s.hits + 1 ∧
      (LruCache.get s k).2 = some n.result) ∧
    (∃ s', LruCache.set s k v = some s' ∧
      s'.order.map Node.key = s.order.map Node.key ∧
      s'.order.map Node.id = s.order.map Node.id ∧
      s'.order.find? (fun m => m.id == i) = some { n with result := v } ∧
      s'.cache = s.cache ∧ s'.hits = s.hits ∧ s'.misses = s.misses) := by
  constructor
  · rw [get_hit_eq s k i n hg hfind]
    exact ⟨List.getLast?_concat _, rfl, rfl⟩
  · refine ⟨{ s with order := s.order.map (updNode i v) },
      by simp [LruCache.set, hg], ?_, ?_, ?_, rfl, rfl, rfl⟩
    · exact map_key_map_updNode s.order i v
    · exact map_id_map_updNode s.order i v
    · have hni : n.id = i := (find?_id_mem s.order i n hfind).2
      rw [show ({ s with order := s.order.map (updNode i v) } : LruState K V).order
          = s.order.map (updNode i v) from rfl]
      rw [find?_map_updNode, hfind, Option.map_some']
      unfold updNode
      simp [hni]

/-- C1 (witness): the amended theorem applied to the concrete state
reached by `set 1 10; set 2 20` on a capacity-2 engine. -/
theorem lru_get_promotes_set_overwrites_in_place_witness :
    ∃ s', LruCache.set (⟨[(1, 0), (2, 1)], [⟨0, 1, 10⟩, ⟨1, 2, 20⟩],
        true, 0, 0, 2, 2⟩ : LruState Nat Nat) 1 99 = some s' ∧
      s'.order.map Node.key = [1, 2] := by
  obtain ⟨_, s', hset, hkeys, _⟩ :=
    lru_get_promotes_set_overwrites_in_place
      (⟨[(1, 0), (2, 1)], [⟨0, 1, 10⟩, ⟨1, 2, 20⟩], true, 0, 0, 2, 2⟩ :
        LruState Nat Nat) 1 99 0 ⟨0, 1, 10⟩ (by decide) (by decide)
  refine ⟨s', hset, ?_⟩
  rw [hkeys]
  decide

/-- C2 (counterexample): `delete` on an absent key is not a no-op — it
raises `KeyError` (`del cache[key]` on the empty dict), modelled by
`none`. -/
theorem lru_delete_absent_raises_cex :
    LruCache.delete (LruCache.init 2 : LruState Nat Nat) 1 = none := by
  decide

/-- C2 (amended): on a state whose dict has no duplicate keys, `delete`
of a present key removes that key's dict entry (leaving the recency
order, the hit and miss counters untouched and clearing `stat[FULL]`),
while `delete` of an absent key raises `KeyError` (`none`), with the hit
and miss counters trivially unchanged because no state is produced. -/
theorem lru_delete_semantics {K V : Type} [DecidableEq K]
    (s : LruState K V) (k : K) (hnd : (s.cache.map Prod.fst).Nodup) :
    (∀ i, dictGet s.cache k = some i →
      ∃ s', LruCache.delete s k = some s' ∧ dictGet s'.cache k = none ∧
        s'.order = s.order ∧ s'.hits = s.hits ∧ s'.misses = s.misses ∧
        s'.full = false ∧ s'.cache.length + 1 = s.cache.length) ∧
    (dictGet s.cache k = none → LruCache.delete s k = none) := by
  constructor
  · intro i hi
    obtain ⟨cache', hdel⟩ := dictDel_isSome_of_get _ _ _ hi
    refine ⟨{ s with cache := cache', full := false },
      by simp [LruCache.delete, hdel], ?_, rfl, rfl, rfl, rfl, ?_⟩
    · exact dictGet_dictDel_self _ _ _ hnd hdel
    · exact dictDel_length _ _ _ hdel
  · intro h
    have hdel : dictDel s.cache k = none := by
      rw [dictDel_eq_none_iff]
      rw [dictGet_eq_none_iff] at h
      exact h
    simp [LruCache.delete, hdel]

/-- C2 (witness): deleting the present key 1 from a one-entry state, and
deleting from the empty engine. -/
theorem lru_delete_semantics_witness :
    (∃ s', LruCache.delete (⟨[(1, 0)], [⟨0, 1, 5⟩], true, 0, 0, 1, 1⟩ :
        LruState Nat Nat) 1 = some s' ∧ dictGet s'.cache 1 = none ∧
        s'.hits = 0 ∧ s'.misses = 0) ∧
    LruCache.delete (LruCache.init 1 : LruState Nat Nat) 1 = none := by
  constructor
  · obtain ⟨s', h1, h2, _, h4, h5, _⟩ :=
      (lru_delete_semantics (⟨[(1, 0)], [⟨0, 1, 5⟩], true, 0, 0, 1, 1⟩ :
        LruState Nat Nat) 1 (by decide)).1 0 (by decide)
    exact ⟨s', h1, h2, h4, h5⟩
  · exact (lru_delete_semantics (LruCache.init 1 : LruState Nat Nat) 1
      (by decide)).2 (by decide)

/-- C3 (counterexample): `delete` removes the key from the dict but not
its link from the circular list: after `set 1 10; delete 1` on a
capacity-1 engine the ordering holds one (stale) link while the dict is
empty, so the two are not mutually consistent; and the stale link later
makes a public `set` fail with `KeyError` (`set 2 20` refills the dict,
then `set 3 30` evicts the stale head whose key 1 is no longer in the
dict). -/
theorem lru_delete_breaks_consistency_cex :
    (LruOp.runTrace (LruCache.init 1 : LruState Nat Nat)
        [.set 1 10, .delete 1]).map
      (fun s => (s.order.length, s.cache.length)) = some (1, 0) ∧
    LruOp.runTrace (LruCache.init 1 : LruState Nat Nat)
      [.set 1 10, .delete 1, .set 2 20, .set 3 30] = none := by
  exact ⟨by decide, by decide⟩

/-- C3 (amended): after any sequence of `get`/`set`/`clear` operations —
i.e. any sequence *not containing `delete`* — no operation fails, and
the dict and the recency ordering are mutually consistent: every link's
key maps to that link's identity, every dict entry is matched by exactly
one link (the keys in the ordering are distinct), and the two have equal
sizes. -/
theorem lru_consistency_without_delete {K V : Type} [DecidableEq K]
    (N : Nat) (t : List (LruOp K V))
    (hnd : ∀ o ∈ t, LruOp.notDelete o = true) :
    ∃ s', LruOp.runTrace (LruCache.init N : LruState K V) t = some s' ∧
      (∀ n ∈ s'.order, dictGet s'.cache n.key = some n.id) ∧
      (∀ k i, dictGet s'.cache k = some i →
        ∃ n, n ∈ s'.order ∧ n.key = k ∧ n.id = i) ∧
      (s'.order.map Node.key).Nodup ∧
      s'.cache.length = s'.order.length := by
  obtain ⟨s', hrun, hinv, _⟩ := lruInv_runTrace _ (lruInv_init N) t hnd
  exact ⟨s', hrun, hinv.mem_to, hinv.to_mem, hinv.keysND, hinv.len_eq⟩

/-- C3 (witness): a concrete delete-free trace. -/
theorem lru_consistency_without_delete_witness :
    ∃ s' : LruState Nat Nat,
      LruOp.runTrace (LruCache.init 2)
        [.set 1 10, .get 1, .set 2 20, .clear, .set 3 30] = some s' ∧
      s'.cache.length = s'.order.length := by
  obtain ⟨s', hrun, _, _, _, hlen⟩ :=
    lru_consistency_without_delete 2
      [.set 1 10, .get 1, .set 2 20, .clear, .set 3 30] (by decide)
  exact ⟨s', hrun, hlen⟩

/-- C4 (counterexample): on an engine built with `maxsize = 0`, `set 1 5`
does *not* evict what it just inserted: the following `get 1` is a hit
returning 5, and the live entry count is 1, not 0 (`stat[FULL]` is only
recomputed after the insertion, so the first `set` stores its entry). -/
theorem lru_maxsize_zero_stores_cex :
    (LruOp.runTrace (LruCache.init 0 : LruState Nat Nat) [.set 1 5]).map
      (fun s => ((LruCache.get s 1).2, (LruCache.cache_info s).currsize)) =
      some (some 5, 1) := by
  decide

/-- C4 (amended): an engine with `maxsize = 0` behaves as a one-entry
cache: after any non-empty sequence of `set` calls the live entry count
is exactly 1, and a `get` of the key just `set` returns the value just
stored. -/
theorem lru_maxsize_zero_capacity_one {K V : Type} [DecidableEq K]
    (kvs : List (K × V)) (k : K) (v : V) :
    ∃ s', LruOp.runTrace (LruCache.init 0 : LruState K V)
        (LruOp.setsOf (kvs ++ [(k, v)])) = some s' ∧
      (LruCache.cache_info s').currsize = 1 ∧
      (LruCache.get s' k).2 = some v := by
  obtain ⟨s₁, hrun₁, hinv₁, hmax₁⟩ := lruInv_runTrace (LruCache.init 0)
    (lruInv_init 0) (LruOp.setsOf kvs) (setsOf_notDelete kvs)
  obtain ⟨s', hset, hinv', hmax', hge⟩ := lruInv_set s₁ hinv₁ k v
  have hmax0 : s'.maxsize = 0 := by rw [hmax', hmax₁]; rfl
  have hle1 : s'.cache.length ≤ 1 := by
    have hcap := hinv'.cap
    rw [hmax0] at hcap
    omega
  refine ⟨s', ?_, le_antisymm hle1 hge, ?_⟩
  · rw [setsOf_append, runTrace_append, hrun₁]
    simp [LruOp.setsOf, LruOp.runTrace, LruOp.step, hset]
  · rw [get_snd_eq_valueAt]
    exact valueAt_set_self s₁ hinv₁ k v s' hset

/-- C5: the capacity invariant.  For every positive `N` and every
sequence of `set` calls on an engine built with `maxsize = N`, the run
never fails and the live entry count reported by `cache_info` never
exceeds `N` (every prefix of a sequence is itself a sequence, so this
bounds the count after each call). -/
theorem lru_capacity_invariant {K V : Type} [DecidableEq K]
    (N : Nat) (hN : 1 ≤ N) (kvs : List (K × V)) :
    ∃ s', LruOp.runTrace (LruCache.init N : LruState K V)
        (LruOp.setsOf kvs) = some s' ∧
      (LruCache.cache_info s').currsize ≤ N := by
  obtain ⟨s', hrun, hinv, hmax⟩ := lruInv_runTrace (LruCache.init N)
    (lruInv_init N) (LruOp.setsOf kvs) (setsOf_notDelete kvs)
  refine ⟨s', hrun, ?_⟩
  have hcap := hinv.cap
  have hm : s'.maxsize = N := by rw [hmax]; rfl
  rw [hm] at hcap
  show s'.cache.length ≤ N
  omega

/-- C5 (witness): capacity 2 holds at most 2 of the 4 inserted keys. -/
theorem lru_capacity_invariant_witness :
    1 ≤ 2 ∧ ∃ s', LruOp.runTrace (LruCache.init 2 : LruState Nat Nat)
        (LruOp.setsOf [(1, 10), (2, 20), (3, 30), (4, 40)]) = some s' ∧
      (LruCache.cache_info s').currsize ≤ 2 :=
  ⟨by decide, lru_capacity_invariant 2 (by decide) [(1, 10), (2, 20), (3, 30), (4, 40)]⟩

/-- C7: hit/miss accounting.  A `get` on an absent key increments the
miss counter only and returns the `SENTINEL` (`none`), which differs
from `some v` for every storable value `v` (Python's `None` is itself a
storable value `v`); a `get` on a present key (of a reachable,
invariant-satisfying state) increments the hit counter only and returns
the stored value; and that stored value is exactly the value of the last
`set` for the key: after `set k v` followed by any delete-free
operations none of which is a `set` on `k`, a `get` of `k` returns
`some v` whenever `k` is still present. -/
theorem lru_hit_miss_accounting {K V : Type} [DecidableEq K]
    (s : LruState K V) (k : K) :
    (dictGet s.cache k = none →
      LruCache.get s k = ({ s with misses := s.misses + 1 }, none)) ∧
    (∀ v : V, (none : Option V) ≠ some v) ∧
    (∀ i, LruInv s → dictGet s.cache k = some i →
      ∃ n, n ∈ s.order ∧ n.key = k ∧
        (LruCache.get s k).1.hits = s.hits + 1 ∧
        (LruCache.get s k).1.misses = s.misses ∧
        (LruCache.get s k).2 = some n.result) ∧
    (∀ (v : V) (s₁ s₂ : LruState K V) (t : List (LruOp K V)),
      LruInv s → LruCache.set s k v = some s₁ →
      (∀ o ∈ t, LruOp.notDelete o = true) →
      (∀ o ∈ t, LruOp.notSetOn k o = true) →
      LruOp.runTrace s₁ t = some s₂ →
      dictGet s₂.cache k ≠ none →
      (LruCache.get s₂ k).2 = some v) := by
  refine ⟨fun hg => get_miss_eq s k hg, ?_, ?_, ?_⟩
  · intro v h
    cases h
  · intro i hinv hg
    obtain ⟨n, hfind, hn, hnk, hni⟩ := lruInv_find s hinv k i hg
    rw [get_hit_eq s k i n hg hfind]
    exact ⟨n, hn, hnk, rfl, rfl, rfl⟩
  · intro v s₁ s₂ t hinv hset hnd hns hrun hpresent
    have hinv₁ : LruInv s₁ := by
      obtain ⟨s₁', hset', hinv₁', _, _⟩ := lruInv_set s hinv k v
      rw [hset] at hset'
      cases hset'
      exact hinv₁'
    have hinv₂ : LruInv s₂ := by
      obtain ⟨s₂', hrun', hinv₂', _⟩ := lruInv_runTrace s₁ hinv₁ t hnd
      rw [hrun] at hrun'
      cases hrun'
      exact hinv₂'
    have hv₁ : valueAt s₁ k = some v := valueAt_set_self s hinv k v s₁ hset
    rcases valueAt_runTrace_preserve s₁ hinv₁ k t hnd hns s₂ hrun with hp | hp
    · rw [get_snd_eq_valueAt, hp, hv₁]
    · exfalso
      rcases hg₂ : dictGet s₂.cache k with _ | i₂
      · exact hpresent hg₂
      · obtain ⟨n, hvn, _, _, _⟩ := valueAt_of_present s₂ hinv₂ k i₂ hg₂
        rw [hvn] at hp
        cases hp

/-- C7 (witness): a miss on the empty engine bumps only the miss
counter; after `set 1 5` (and no further operations), `get 1`
returns 5. -/
theorem lru_hit_miss_accounting_witness :
    LruCache.get (LruCache.init 2 : LruState Nat Nat) 7 =
      ({ LruCache.init 2 with misses := 1 }, none) ∧
    ∃ s₁ : LruState Nat Nat, LruCache.set (LruCache.init 2) 1 5 = some s₁ ∧
      (LruCache.get s₁ 1).2 = some 5 := by
  constructor
  · exact (lru_hit_miss_accounting (LruCache.init 2 : LruState Nat Nat) 7).1
      (by decide)
  · have hset : LruCache.set (LruCache.init 2 : LruState Nat Nat) 1 5 =
        some (⟨[(1, 0)], [⟨0, 1, 5⟩], false, 0, 0, 2, 1⟩ : LruState Nat Nat) := by
      decide
    exact ⟨_, hset,
      (lru_hit_miss_accounting (LruCache.init 2 : LruState Nat Nat) 1).2.2.2
        5 _ _ [] (lruInv_init 2) hset (by simp) (by simp) rfl (by decide)⟩

/-- C8 (counterexample): the default registry has no `'serialize'`
entry — only `None`, `'json'` and `'pickle'` are registered at module
import. -/
theorem registry_serialize_missing_cex :
    registry.get (some "serialize") = none := by
  decide

/-- C8 (amended): the module-level registration chain succeeds, and the
default registry maps the `None` name to the identity (`bypass`) pair,
`'json'` to the `JsonCoder` instance, and `'pickle'` to the
`pickle.dumps`/`loads` pair — each retrievable through `get` — while
`'serialize'` is not registered and `get` returns the not-found result
for it. -/
theorem registry_builtin_entries :
    registryE = .ok registry ∧
    registry.get none = some (.coderTuple .bypass .bypass) ∧
    registry.get (some "json") = some (.coderInst .jsonEncode .jsonDecode) ∧
    registry.get (some "pickle") =
      some (.coderTuple .pickleDumps .pickleLoads) ∧
    registry.get (some "serialize") = none := by
  refine ⟨?_, ?_, ?_, ?_, ?_⟩ <;> rfl

/-- C9: `Registry.register` fails (with the `TypeError` the spec calls
InvalidCoder) exactly when the raw coder is neither a `Coder` instance,
nor a tuple, nor an object exposing both `encode` and `decode`
attributes; in every accepted case it stores the normalized coder under
the given name — overwriting any prior entry and leaving every other
entry unchanged — and a failing call produces no registry at all, so it
never partially mutates one. -/
theorem register_invalid_coder_iff (r : Registry) (n : Option String)
    (raw : PyObj) :
    ((∃ e, Registry.register r n raw = .error e) ↔
      (raw.isCoder = false ∧ raw.isTuple = false ∧
        ¬(raw.hasEncodeAttr = true ∧ raw.hasDecodeAttr = true))) ∧
    (∀ r', Registry.register r n raw = .ok r' →
      ∃ c, coderize raw = .ok c ∧ r'.coders = dictSet r.coders n c ∧
        r'.get n = some c ∧ ∀ m, m ≠ n → r'.get m = r.get m) := by
  constructor
  · cases raw with
    | coderInst e d =>
        simp [Registry.register, coderize, PyObj.isCoder, PyObj.isTuple,
          PyObj.hasEncodeAttr, PyObj.hasDecodeAttr]
    | coderTuple e d =>
        simp [Registry.register, coderize, PyObj.isCoder, PyObj.isTuple,
          PyObj.hasEncodeAttr, PyObj.hasDecodeAttr]
    | tup e d =>
        simp [Registry.register, coderize, PyObj.isCoder, PyObj.isTuple,
          PyObj.hasEncodeAttr, PyObj.hasDecodeAttr]
    | pystr str =>
        simp [Registry.register, coderize, PyObj.isCoder, PyObj.isTuple,
          PyObj.hasEncodeAttr, PyObj.hasDecodeAttr]
    | obj oe od =>
        cases oe <;> cases od <;>
          simp [Registry.register, coderize, PyObj.isCoder, PyObj.isTuple,
            PyObj.hasEncodeAttr, PyObj.hasDecodeAttr]
  · intro r' hok
    rcases hc : coderize raw with e | c
    · rw [Registry.register, hc] at hok
      cases hok
    · rw [Registry.register, hc] at hok
      cases hok
      refine ⟨c, rfl, rfl, ?_, ?_⟩
      · exact dictGet_dictSet_self _ _ _
      · intro m hm
        exact dictGet_dictSet_ne _ _ _ _ (fun he => hm he.symm)

/-- C9 (witness): an object with neither attribute is rejected; a plain
tuple is accepted and stored under its name. -/
theorem register_invalid_coder_iff_witness :
    (∃ e, Registry.register ⟨[]⟩ none (.obj none none) = .error e) ∧
    ∃ c, coderize (.tup .bypass .bypass) = .ok c ∧
      (⟨[(none, .coderTuple .bypass .bypass)]⟩ : Registry).coders =
        dictSet (⟨[]⟩ : Registry).coders none c := by
  constructor
  · exact (register_invalid_coder_iff ⟨[]⟩ none (.obj none none)).1.mpr
      (by decide)
  · obtain ⟨c, h1, h2, _⟩ :=
      (register_invalid_coder_iff ⟨[]⟩ none (.tup .bypass .bypass)).2
        ⟨[(none, .coderTuple .bypass .bypass)]⟩ (by rfl)
    exact ⟨c, h1, h2⟩

/-- C10: passing a string as the raw coder always raises the dedicated
`TypeError` ("not a registered name in coder registry"), both in
`coderize` and through `Registry.register`, for every registry state —
the registry itself never looks the string up as a coder name — even
though a Python 3 string does expose an `encode` attribute. -/
theorem coderize_rejects_strings (r : Registry) (n : Option String)
    (str : String) :
    coderize (.pystr str) = .error .strNotRegistered ∧
    Registry.register r n (.pystr str) = .error .strNotRegistered ∧
    (PyObj.pystr str).hasEncodeAttr = true := by
  exact ⟨rfl, rfl, rfl⟩

/-- C6: recency-order eviction.  For any `N ≥ 2` distinct keys
`k1, k2, …` (the list `(k1,v1) :: (k2,v2) :: rest`, whose length is `N`)
inserted in order into an empty engine of capacity `N`, followed by
`get k1` (which promotes `k1`) and then `set kN1 vN1` for a fresh key,
the evicted key is `k2` — the least-recently-used after the promotion —
and not `k1`: afterwards `get k2` misses while `k1`, every key of
`rest`, and `kN1` are all still present. -/
theorem lru_recency_eviction {K V : Type} [DecidableEq K]
    (k1 k2 kN1 : K) (v1 v2 vN1 : V) (rest : List (K × V))
    (hnd : (((k1, v1) :: (k2, v2) :: rest).map Prod.fst).Nodup)
    (hfresh : kN1 ∉ ((k1, v1) :: (k2, v2) :: rest).map Prod.fst) :
    ∃ s', LruOp.runTrace
        (LruCache.init ((k1, v1) :: (k2, v2) :: rest).length : LruState K V)
        (LruOp.setsOf ((k1, v1) :: (k2, v2) :: rest) ++
          [LruOp.get k1, LruOp.set kN1 vN1]) = some s' ∧
      (LruCache.get s' k2).2 = none ∧
      (LruCache.get s' k1).2.isSome = true ∧
      (∀ kv ∈ rest, (LruCache.get s' kv.1).2.isSome = true) ∧
      (LruCache.get s' kN1).2.isSome = true := by
  have hnds := hnd
  simp only [List.map_cons, List.nodup_cons, List.mem_cons] at hnds
  push_neg at hnds
  obtain ⟨⟨hk12, hk1r⟩, hk2r, hrnd⟩ := hnds
  have hfr' := hfresh
  simp only [List.map_cons, List.mem_cons] at hfr'
  push_neg at hfr'
  obtain ⟨hfk1, hfk2, hfr⟩ := hfr'
  have hN1 : 1 ≤ ((k1, v1) :: (k2, v2) :: rest).length := by simp
  have hfill := runSets_from_init (((k1, v1) :: (k2, v2) :: rest).length) hN1
    ((k1, v1) :: (k2, v2) :: rest) hnd (le_refl _)
  -- the `get k1` step on the filled engine
  have hg1 : dictGet (mkFilled ((k1, v1) :: (k2, v2) :: rest).length
      ((k1, v1) :: (k2, v2) :: rest) : LruState K V).cache k1 = some 0 := by
    simp [mkFilled, mkCache, dictGet]
  have hfind1 : (mkFilled ((k1, v1) :: (k2, v2) :: rest).length
      ((k1, v1) :: (k2, v2) :: rest) : LruState K V).order.find?
      (fun m => m.id == 0) = some ⟨0, k1, v1⟩ := by
    simp [mkFilled, mkNodes, List.find?_cons]
  have hfilter1 : (mkFilled ((k1, v1) :: (k2, v2) :: rest).length
      ((k1, v1) :: (k2, v2) :: rest) : LruState K V).order.filter
      (fun m => m.id != 0) = mkNodes 1 ((k2, v2) :: rest) := by
    show ((⟨0, k1, v1⟩ : Node K V) :: mkNodes 1 ((k2, v2) :: rest)).filter
      (fun m => m.id != 0) = mkNodes 1 ((k2, v2) :: rest)
    rw [List.filter_cons_of_neg (by simp)]
    apply filter_ne_of_forall
    intro m hm
    have := mkNodes_id_ge 1 _ m hm
    omega
  have hget1 : LruCache.get (mkFilled ((k1, v1) :: (k2, v2) :: rest).length
      ((k1, v1) :: (k2, v2) :: rest) : LruState K V) k1 =
      ({ mkFilled ((k1, v1) :: (k2, v2) :: rest).length
          ((k1, v1) :: (k2, v2) :: rest) with
         order := mkNodes 1 ((k2, v2) :: rest) ++ [⟨0, k1, v1⟩],
         hits := 1 }, some v1) := by
    rw [get_hit_eq _ _ 0 ⟨0, k1, v1⟩ hg1 hfind1, hfilter1]
    rfl
  -- the evicting `set kN1` step
  have hg2 : dictGet ({ mkFilled ((k1, v1) :: (k2, v2) :: rest).length
      ((k1, v1) :: (k2, v2) :: rest) with
      order := mkNodes 1 ((k2, v2) :: rest) ++ [⟨0, k1, v1⟩],
      hits := 1 } : LruState K V).cache kN1 = none := by
    show dictGet (mkCache 0 ((k1, v1) :: (k2, v2) :: rest)) kN1 = none
    exact dictGet_mkCache_not_mem 0 _ kN1 hfresh
  have hfull1 : ({ mkFilled ((k1, v1) :: (k2, v2) :: rest).length
      ((k1, v1) :: (k2, v2) :: rest) with
      order := mkNodes 1 ((k2, v2) :: rest) ++ [⟨0, k1, v1⟩],
      hits := 1 } : LruState K V).full = true := by
    show decide (((k1, v1) :: (k2, v2) :: rest).length ≥
      ((k1, v1) :: (k2, v2) :: rest).length) = true
    simp
  have horder1 : ({ mkFilled ((k1, v1) :: (k2, v2) :: rest).length
      ((k1, v1) :: (k2, v2) :: rest) with
      order := mkNodes 1 ((k2, v2) :: rest) ++ [⟨0, k1, v1⟩],
      hits := 1 } : LruState K V).order =
      (⟨1, k2, v2⟩ : Node K V) :: (mkNodes 2 rest ++ [⟨0, k1, v1⟩]) := rfl
  have hdel1 : dictDel ({ mkFilled ((k1, v1) :: (k2, v2) :: rest).length
      ((k1, v1) :: (k2, v2) :: rest) with
      order := mkNodes 1 ((k2, v2) :: rest) ++ [⟨0, k1, v1⟩],
      hits := 1 } : LruState K V).cache (⟨1, k2, v2⟩ : Node K V).key =
      some ((k1, 0) :: mkCache 2 rest) := by
    show dictDel ((k1, 0) :: (k2, 1) :: mkCache 2 rest) k2 =
      some ((k1, 0) :: mkCache 2 rest)
    rw [dictDel_cons_ne _ _ _ _ hk12, dictDel_cons_self]
    rfl
  have hset2 := set_evict_eq _ kN1 vN1 hg2 hfull1 ⟨1, k2, v2⟩
    (mkNodes 2 rest ++ [⟨0, k1, v1⟩]) horder1 ((k1, 0) :: mkCache 2 rest) hdel1
  -- the whole run
  have hrun : LruOp.runTrace
      (LruCache.init ((k1, v1) :: (k2, v2) :: rest).length : LruState K V)
      (LruOp.setsOf ((k1, v1) :: (k2, v2) :: rest) ++
        [LruOp.get k1, LruOp.set kN1 vN1]) =
      some ({ mkFilled ((k1, v1) :: (k2, v2) :: rest).length
          ((k1, v1) :: (k2, v2) :: rest) with
        order := (mkNodes 2 rest ++ [⟨0, k1, v1⟩]) ++
          [⟨((k1, v1) :: (k2, v2) :: rest).length, kN1, vN1⟩],
        cache := dictSet ((k1, 0) :: mkCache 2 rest) kN1
          ((k1, v1) :: (k2, v2) :: rest).length,
        hits := 1,
        nextId := ((k1, v1) :: (k2, v2) :: rest).length + 1 } : LruState K V) := by
    rw [runTrace_append, hfill]
    show LruOp.runTrace _ [LruOp.get k1, LruOp.set kN1 vN1] = _
    rw [LruOp.runTrace]
    simp only [LruOp.step, hget1]
    rw [LruOp.runTrace]
    simp only [LruOp.step, hset2]
    rw [LruOp.runTrace]
    rfl
  -- the invariant holds in the final state
  have hndall : ∀ o ∈ (LruOp.setsOf ((k1, v1) :: (k2, v2) :: rest) ++
      [LruOp.get k1, LruOp.set kN1 vN1]), LruOp.notDelete o = true := by
    intro o ho
    rcases List.mem_append.mp ho with h | h
    · exact setsOf_notDelete _ o h
    · simp only [List.mem_cons, List.mem_singleton] at h
      rcases h with rfl | rfl | h
      · rfl
      · rfl
      · cases h
  obtain ⟨sX, hrunX, hinvX, _⟩ := lruInv_runTrace _
    (lruInv_init ((k1, v1) :: (k2, v2) :: rest).length) _ hndall
  rw [hrun] at hrunX
  cases hrunX
  -- the final dict
  have hcacheFin : ({ mkFilled ((k1, v1) :: (k2, v2) :: rest).length
      ((k1, v1) :: (k2, v2) :: rest) with
      order := (mkNodes 2 rest ++ [⟨0, k1, v1⟩]) ++
        [⟨((k1, v1) :: (k2, v2) :: rest).length, kN1, vN1⟩],
      cache := dictSet ((k1, 0) :: mkCache 2 rest) kN1
        ((k1, v1) :: (k2, v2) :: rest).length,
      hits := 1,
      nextId := ((k1, v1) :: (k2, v2) :: rest).length + 1 } : LruState K V).cache =
      (k1, 0) :: (mkCache 2 rest ++
        [(kN1, ((k1, v1) :: (k2, v2) :: rest).length)]) := by
    show dictSet ((k1, 0) :: mkCache 2 rest) kN1 _ = _
    rw [dictSet_cons_ne _ _ _ _ _ (Ne.symm hfk1)]
    rw [dictSet_of_not_mem _ _ _ (by rw [mkCache_map_fst]; exact hfr)]
  refine ⟨_, hrun, ?_, ?_, ?_, ?_⟩
  · -- k2 was evicted
    have h2get : dictGet ({ mkFilled ((k1, v1) :: (k2, v2) :: rest).length
        ((k1, v1) :: (k2, v2) :: rest) with
        order := (mkNodes 2 rest ++ [⟨0, k1, v1⟩]) ++
          [⟨((k1, v1) :: (k2, v2) :: rest).length, kN1, vN1⟩],
        cache := dictSet ((k1, 0) :: mkCache 2 rest) kN1
          ((k1, v1) :: (k2, v2) :: rest).length,
        hits := 1,
        nextId := ((k1, v1) :: (k2, v2) :: rest).length + 1 } :
          LruState K V).cache k2 = none := by
      rw [hcacheFin, dictGet_cons_ne _ _ _ _ hk12]
      rw [dictGet_append_none _ _ _ (dictGet_mkCache_not_mem 2 _ k2 hk2r)]
      rw [dictGet_cons_ne _ _ _ _ hfk2]
      rfl
    rw [get_miss_eq _ _ h2get]
  · -- k1 is still present
    have h1get : dictGet ({ mkFilled ((k1, v1) :: (k2, v2) :: rest).length
        ((k1, v1) :: (k2, v2) :: rest) with
        order := (mkNodes 2 rest ++ [⟨0, k1, v1⟩]) ++
          [⟨((k1, v1) :: (k2, v2) :: rest).length, kN1, vN1⟩],
        cache := dictSet ((k1, 0) :: mkCache 2 rest) kN1
          ((k1, v1) :: (k2, v2) :: rest).length,
        hits := 1,
        nextId := ((k1, v1) :: (k2, v2) :: rest).length + 1 } :
          LruState K V).cache k1 = some 0 := by
      rw [hcacheFin]
      exact dictGet_cons_self _ _ _
    exact get_isSome_of_present _ hinvX k1 0 h1get
  · -- every key of `rest` is still present
    intro kv hkv
    have hmem : kv.1 ∈ rest.map Prod.fst := List.mem_map.mpr ⟨kv, hkv, rfl⟩
    obtain ⟨j, hj⟩ := Option.isSome_iff_exists.mp
      (dictGet_mkCache_isSome_of_mem 2 rest kv.1 hmem)
    have hk1kv : k1 ≠ kv.1 := fun he => hk1r (he ▸ hmem)
    have hget : dictGet ({ mkFilled ((k1, v1) :: (k2, v2) :: rest).length
        ((k1, v1) :: (k2, v2) :: rest) with
        order := (mkNodes 2 rest ++ [⟨0, k1, v1⟩]) ++
          [⟨((k1, v1) :: (k2, v2) :: rest).length, kN1, vN1⟩],
        cache := dictSet ((k1, 0) :: mkCache 2 rest) kN1
          ((k1, v1) :: (k2, v2) :: rest).length,
        hits := 1,
        nextId := ((k1, v1) :: (k2, v2) :: rest).length + 1 } :
          LruState K V).cache kv.1 = some j := by
      rw [hcacheFin, dictGet_cons_ne _ _ _ _ hk1kv]
      exact dictGet_append_some _ _ _ _ hj
    exact get_isSome_of_present _ hinvX kv.1 j hget
  · -- the fresh key is present
    have hNget : dictGet ({ mkFilled ((k1, v1) :: (k2, v2) :: rest).length
        ((k1, v1) :: (k2, v2) :: rest) with
        order := (mkNodes 2 rest ++ [⟨0, k1, v1⟩]) ++
          [⟨((k1, v1) :: (k2, v2) :: rest).length, kN1, vN1⟩],
        cache := dictSet ((k1, 0) :: mkCache 2 rest) kN1
          ((k1, v1) :: (k2, v2) :: rest).length,
        hits := 1,
        nextId := ((k1, v1) :: (k2, v2) :: rest).length + 1 } :
          LruState K V).cache kN1 =
        some ((k1, v1) :: (k2, v2) :: rest).length := by
      rw [hcacheFin, dictGet_cons_ne _ _ _ _ (Ne.symm hfk1)]
      rw [dictGet_append_none _ _ _ (dictGet_mkCache_not_mem 2 _ kN1 hfr)]
      exact dictGet_cons_self _ _ _
    exact get_isSome_of_present _ hinvX kN1 _ hNget

/-- C6 (witness): capacity 2, keys 1 and 2, `get 1`, then `set 3`. -/
theorem lru_recency_eviction_witness :
    ∃ s' : LruState Nat Nat, LruOp.runTrace (LruCache.init 2)
        (LruOp.setsOf [(1, 10), (2, 20)] ++ [LruOp.get 1, LruOp.set 3 30]) =
        some s' ∧
      (LruCache.get s' 2).2 = none ∧
      (LruCache.get s' 1).2.isSome = true ∧
      (LruCache.get s' 3).2.isSome = true := by
  obtain ⟨s', hrun, h2, h1, _, h3⟩ :=
    lru_recency_eviction 1 2 3 10 20 30 [] (by decide) (by decide)
  exact ⟨s', hrun, h2, h1, h3⟩
